import Mathlib

/-!
Verification of the CrewAI-based Python code analyser script
(`crew_analyser.py`): file discovery via `glob`, the three-task
pipeline definition, the sequential executor, and the result
materializer that writes the report artifacts.

The pure parts (task construction, artifact contents, glob traversal,
JSON pretty-printing with 2-space indent as done by `json.dump`) are
embedded directly from the source.  The executor (`Crew.kickoff`,
provided by the external `crewai` library) is modelled from the
specification of the sequential process.
-/

namespace CrewAnalyser


/-! ## Decimal digits (used by `json.dump` for numbers and by
`strftime` for the timestamp) -/

/-- One decimal digit rendered as a character (`0`–`9`). -/
def decDigit (n : Nat) : Char := Nat.digitChar n

/-- Accumulator-style decimal rendering of a natural number,
most-significant digit first, prepended to `acc`. -/
def natDigitsAux (n : Nat) (acc : List Char) : List Char :=
  if h : n < 10 then decDigit n :: acc
  else natDigitsAux (n / 10) (decDigit (n % 10) :: acc)
  termination_by n
  decreasing_by
    exact Nat.div_lt_self (by omega) (by omega)

/-- Decimal rendering of a natural number (always nonempty). -/
def natDigits (n : Nat) : List Char := natDigitsAux n []

/-- Recognize an ASCII decimal digit. -/
def isDigitChar (c : Char) : Bool := 48 ≤ c.toNat && c.toNat ≤ 57

/-- Consume a maximal run of decimal digits, folding them onto `acc`. -/
def takeDigits : List Char → Nat → Nat × List Char
  | [], acc => (acc, [])
  | c :: cs, acc =>
    if isDigitChar c then takeDigits cs (acc * 10 + (c.toNat - 48))
    else (acc, c :: cs)

/-- The value denoted by a digit string, folded left onto `a`. -/
def valueOfDigits (a : Nat) : List Char → Nat
  | [] => a
  | c :: cs => valueOfDigits (a * 10 + (c.toNat - 48)) cs

/-! ## JSON values and `json.dump(..., indent=2)`

`result.json_dict` is a Python `dict` whose values are JSON-serializable.
We model JSON values with integer numbers (floating-point numbers are out
of scope of this embedding). -/

inductive Json where
  | null : Json
  | bool (b : Bool) : Json
  | num (n : Int) : Json
  | str (s : String) : Json
  | arr (xs : List Json) : Json
  | obj (kvs : List (String × Json)) : Json

/-- The `\x7b` character. -/
def lbrace : Char := Char.ofNat 123

/-- The `\x7d` character. -/
def rbrace : Char := Char.ofNat 125

/-- JSON escaping of one character inside a string literal
(as `json.dump` does: quote, backslash and control characters). -/
def escChar (c : Char) : List Char :=
  if c = '"' then ['\\', '"']
  else if c = '\\' then ['\\', '\\']
  else if c = '\n' then ['\\', 'n']
  else if c = '\t' then ['\\', 't']
  else if c = '\r' then ['\\', 'r']
  else if c.toNat < 32 then
    ['\\', 'u', '0', '0', Nat.digitChar (c.toNat / 16), Nat.digitChar (c.toNat % 16)]
  else [c]

/-- Escape every character of a string body. -/
def escList : List Char → List Char
  | [] => []
  | c :: cs => escChar c ++ escList cs

/-- A JSON string literal: quoted, escaped body. -/
def serStr (s : String) : List Char := '"' :: (escList s.toList ++ ['"'])

/-- Decimal rendering of an integer. -/
def intChars (i : Int) : List Char :=
  if i < 0 then '-' :: natDigits i.natAbs else natDigits i.natAbs

/-- Newline followed by `n` spaces: the separator `json.dump` emits
between items when an `indent` is given. -/
def nlIndent (n : Nat) : List Char := '\n' :: List.replicate n ' '

mutual

/-- Pretty-print a JSON value at indentation level `cur`, exactly as
`json.dump(value, f, indent=2)` lays it out. -/
def serVal (cur : Nat) : Json → List Char
  | .null => 'n' :: 'u' :: 'l' :: 'l' :: []
  | .bool true => 't' :: 'r' :: 'u' :: 'e' :: []
  | .bool false => 'f' :: 'a' :: 'l' :: 's' :: 'e' :: []
  | .num i => intChars i
  | .str s => serStr s
  | .arr [] => ['[', ']']
  | .arr (x :: xs) => '[' :: (serItems (cur + 2) (x :: xs) ++ (nlIndent cur ++ [']']))
  | .obj [] => [lbrace, rbrace]
  | .obj (kv :: kvs) => lbrace :: (serMems (cur + 2) (kv :: kvs) ++ (nlIndent cur ++ [rbrace]))

/-- The comma-separated items of a nonempty array, each on its own
indented line. -/
def serItems (cur : Nat) : List Json → List Char
  | [] => []
  | [x] => nlIndent cur ++ serVal cur x
  | x :: xs => nlIndent cur ++ (serVal cur x ++ (',' :: serItems cur xs))

/-- The comma-separated members of a nonempty object, each on its own
indented line, with `": "` between key and value. -/
def serMems (cur : Nat) : List (String × Json) → List Char
  | [] => []
  | [(k, v)] => nlIndent cur ++ (serStr k ++ (':' :: ' ' :: serVal cur v))
  | (k, v) :: kvs => nlIndent cur ++ (serStr k ++ (':' :: ' ' :: (serVal cur v ++ (',' :: serMems cur kvs))))

end


/-! ### A JSON parser (recursive descent, fuel-indexed) -/

/-- JSON insignificant whitespace. -/
def isWsChar (c : Char) : Bool :=
  c.toNat = 32 || c.toNat = 10 || c.toNat = 9 || c.toNat = 13

/-- Drop leading whitespace. -/
def skipWs : List Char → List Char
  | [] => []
  | c :: cs => if isWsChar c then skipWs cs else c :: cs

/-- Decode a single-letter escape. -/
def unescChar (e : Char) : Option Char :=
  if e = '"' then some '"'
  else if e = '\\' then some '\\'
  else if e = '/' then some '/'
  else if e = 'n' then some '\n'
  else if e = 't' then some '\t'
  else if e = 'r' then some '\r'
  else if e = 'b' then some (Char.ofNat 8)
  else if e = 'f' then some (Char.ofNat 12)
  else none

/-- Value of one hexadecimal digit. -/
def hexVal (c : Char) : Option Nat :=
  if 48 ≤ c.toNat && c.toNat ≤ 57 then some (c.toNat - 48)
  else if 97 ≤ c.toNat && c.toNat ≤ 102 then some (c.toNat - 87)
  else if 65 ≤ c.toNat && c.toNat ≤ 70 then some (c.toNat - 55)
  else none

/-- Parse the body of a string literal after the opening quote, up to
and including the closing quote; returns the decoded body and the
remaining input. -/
def parseStrBody : List Char → Option (List Char × List Char)
  | [] => none
  | c :: rest =>
    if c = '"' then some ([], rest)
    else if c = '\\' then
      match rest with
      | [] => none
      | e :: rest1 =>
        if e = 'u' then
          match rest1 with
          | h1 :: h2 :: h3 :: h4 :: rest2 =>
            match hexVal h1, hexVal h2, hexVal h3, hexVal h4 with
            | some a, some b, some c2, some d =>
              (parseStrBody rest2).map
                (fun p => (Char.ofNat (((a * 16 + b) * 16 + c2) * 16 + d) :: p.1, p.2))
            | _, _, _, _ => none
          | _ => none
        else
          match unescChar e with
          | some ch => (parseStrBody rest1).map (fun p => (ch :: p.1, p.2))
          | none => none
    else (parseStrBody rest).map (fun p => (c :: p.1, p.2))

/-- Parse an integer literal. -/
def parseNum : List Char → Option (Json × List Char)
  | [] => none
  | c :: rest =>
    if c = '-' then
      match rest with
      | [] => none
      | d :: rest1 =>
        if isDigitChar d then
          let p := takeDigits rest1 (d.toNat - 48)
          some (.num (-(p.1 : Int)), p.2)
        else none
    else if isDigitChar c then
      let p := takeDigits rest (c.toNat - 48)
      some (.num ((p.1 : Nat) : Int), p.2)
    else none

mutual

/-- Parse one JSON value; the input must start with a non-whitespace
character.  `fuel` bounds the nesting depth. -/
def parseVal : Nat → List Char → Option (Json × List Char)
  | 0, _ => none
  | fuel + 1, cs =>
    match cs with
    | [] => none
    | c :: rest =>
      if c = 'n' then
        match rest with
        | 'u' :: 'l' :: 'l' :: rest1 => some (.null, rest1)
        | _ => none
      else if c = 't' then
        match rest with
        | 'r' :: 'u' :: 'e' :: rest1 => some (.bool true, rest1)
        | _ => none
      else if c = 'f' then
        match rest with
        | 'a' :: 'l' :: 's' :: 'e' :: rest1 => some (.bool false, rest1)
        | _ => none
      else if c = '"' then
        (parseStrBody rest).map (fun p => (.str (String.mk p.1), p.2))
      else if c = '[' then
        (parseItems fuel (skipWs rest)).map (fun p => (.arr p.1, p.2))
      else if c = lbrace then
        (parseMems fuel (skipWs rest)).map (fun p => (.obj p.1, p.2))
      else parseNum (c :: rest)

/-- Parse the items of an array after the opening bracket (whitespace
already skipped). -/
def parseItems : Nat → List Char → Option (List Json × List Char)
  | 0, _ => none
  | _ + 1, [] => none
  | fuel + 1, c :: rest =>
    if c = ']' then some ([], rest)
    else
      match parseVal fuel (c :: rest) with
      | none => none
      | some (v, r1) =>
        match skipWs r1 with
        | [] => none
        | c2 :: r2 =>
          if c2 = ',' then (parseItems fuel (skipWs r2)).map (fun p => (v :: p.1, p.2))
          else if c2 = ']' then some ([v], r2)
          else none

/-- Parse the members of an object after the opening brace (whitespace
already skipped). -/
def parseMems : Nat → List Char → Option (List (String × Json) × List Char)
  | 0, _ => none
  | _ + 1, [] => none
  | fuel + 1, c :: rest =>
    if c = rbrace then some ([], rest)
    else if c = '"' then
      match parseStrBody rest with
      | none => none
      | some (k, r1) =>
        match skipWs r1 with
        | [] => none
        | c2 :: r2 =>
          if c2 = ':' then
            match parseVal fuel (skipWs r2) with
            | none => none
            | some (v, r3) =>
              match skipWs r3 with
              | [] => none
              | c3 :: r4 =>
                if c3 = ',' then
                  (parseMems fuel (skipWs r4)).map
                    (fun p => ((String.mk k, v) :: p.1, p.2))
                else if c3 = rbrace then some ([(String.mk k, v)], r4)
                else none
          else none
    else none

end


/-- Parse a complete JSON document: leading and trailing whitespace
allowed, nothing else may follow the value. -/
def jsonParse (cs : List Char) : Option Json :=
  match parseVal (cs.length + 1) (skipWs cs) with
  | some (j, r) => if skipWs r = [] then some j else none
  | none => none

/-- Output of `json.dump(value, f, indent=2)` as a string. -/
def jsonPretty (j : Json) : String := String.mk (serVal 0 j)

/-- Parse a string as a JSON document (what `json.load` would accept,
restricted to integer numbers). -/
def jsonParseString (s : String) : Option Json := jsonParse s.toList

/-! ### Fuel measures for the parser -/

mutual

/-- Fuel sufficient for `parseVal` on the serialized form of `j`. -/
def mVal : Json → Nat
  | .arr xs => mItems xs + 1
  | .obj kvs => mMems kvs + 1
  | _ => 1

/-- Fuel sufficient for `parseItems` on serialized items. -/
def mItems : List Json → Nat
  | [] => 1
  | x :: xs => max (mVal x) (mItems xs) + 1

/-- Fuel sufficient for `parseMems` on serialized members. -/
def mMems : List (String × Json) → Nat
  | [] => 1
  | kv :: kvs => max (mVal kv.2) (mMems kvs) + 1

end

/-! ## Data model: Agents, Tasks, Crew (from `crew_analyser.py`) -/

/-- An Agent as constructed in the source: a stateless role descriptor.
The LLM binding is modelled by its model identifier string, a tool by
its name. -/
structure Agent where
  role : String
  goal : String
  backstory : String
  tools : List String
  llm : String
  verbose : Bool
  deriving DecidableEq

/-- A Task: description, assigned agent, expected-output contract and
the list of upstream tasks whose results it depends on (`context`).
Tasks hold back-references to earlier Task objects, hence the inductive
definition. -/
inductive Task where
  | mk (description : String) (agent : Agent) (expected_out : String)
      (context : List Task)

def Task.description : Task → String
  | .mk d _ _ _ => d

def Task.agent : Task → Agent
  | .mk _ a _ _ => a

def Task.expected_out : Task → String
  | .mk _ _ e _ => e

def Task.context : Task → List Task
  | .mk _ _ _ c => c

/-- The process model of a Crew. -/
inductive Process where
  | sequential
  | hierarchical
  deriving DecidableEq

/-- A Crew: agents, ordered task list, process model. -/
structure Crew where
  agents : List Agent
  tasks : List Task
  process : Process

mutual

/-- Decidable equality test on tasks (needed to look results up by
task, as the executor does). -/
def eqTask : Task → Task → Bool
  | .mk d1 a1 e1 c1, .mk d2 a2 e2 c2 =>
    d1 == d2 && a1 == a2 && e1 == e2 && eqTasks c1 c2

def eqTasks : List Task → List Task → Bool
  | [], [] => true
  | t :: ts, u :: us => eqTask t u && eqTasks ts us
  | _, _ => false

end


/-- Source line `llm = LLM(model="openai/gpt-4o-mini")`, modelled by the model id. -/
def llm : String := "openai/gpt-4o-mini"

/-- Source line `file_read_tool = FileReadTool()`, modelled by the tool name. -/
def file_read_tool : String := "FileReadTool"

/-- The hard-coded workspace directory (a Windows path). -/
def workspace_folder : String :=
  "C:\\Users\\aubry\\Documents\\Programs\\Taxo_Analysis_Interface_App\\taxo_analysis_interface_app"

def code_reader_agent : Agent :=
  { role := "Python Code Parser"
    goal := "Systematically read and parse Python files to extract detailed code structure information:\n    1. Extract module-level docstrings and comments\n    2. Identify all class and function definitions with their signatures\n    3. Capture imports and module dependencies\n    4. Preserve code hierarchy and nesting relationships\n    5. Document code organization and file structure"
    backstory := "You are an expert Python code parser specialized in breaking down source code into well-structured components. \n    You carefully analyze file contents to create organized representations that preserve both syntax and semantic relationships.\n    You pay special attention to docstrings, type hints, and code organization patterns."
    tools := [file_read_tool]
    llm := llm
    verbose := true }

def structure_analyzer_agent : Agent :=
  { role := "Structure Analyzer"
    goal := "Analyze code structure and relationships to:\n    1. Map class hierarchies, inheritance patterns, and composition relationships\n    2. Document class attributes, methods, and their visibility (public/private)\n    3. Identify key design patterns and architectural components\n    4. Trace object interactions and dependencies between classes\n    5. Evaluate code modularity and coupling between components"
    backstory := "You are an expert software architect specializing in Python code analysis. \n    You excel at understanding complex object-oriented structures, identifying relationships between components,\n    and mapping how different parts of the application interact. You focus on both the technical implementation \n    details and the higher-level architectural patterns."
    tools := []
    llm := llm
    verbose := false }

def report_writer_agent : Agent :=
  { role := "Technical Documentation Specialist"
    goal := "Create comprehensive technical documentation including:\n    1. Generate detailed PlantUML class diagrams showing class relationships\n    2. Create PlantUML sequence diagrams for key interactions\n    3. Provide a clear hierarchical structure of the codebase\n    4. Document architectural patterns and design decisions\n    5. Include dependency graphs and component relationships"
    backstory := "You are an expert technical writer with deep knowledge of UML and documentation best practices.\n    You excel at creating clear, visual documentation using PlantUML syntax and markdown.\n    You know how to organize complex technical information into easily digestible formats."
    tools := []
    llm := llm
    verbose := false }

/-- A single-quote character (for Python `repr` of strings). -/
def sq : String := String.singleton (Char.ofNat 39)

/-- Python `repr` of a simple string (plain quoting; escaping of
special characters inside paths is not modelled). -/
def pyStrRepr (s : String) : String := sq ++ s ++ sq

/-- Python `str` of a list of strings, as interpolated by the f-string
in `read_code_task`. -/
def pyListRepr (xs : List String) : String :=
  "[" ++ String.intercalate ", " (xs.map pyStrRepr) ++ "]"

/-- Task `read_code_task`: the extraction task; its description embeds the
discovered file list literally; it has no context. -/
def read_code_task (python_files : List String) : Task :=
  .mk ("Systematically parse and extract information from these Python files: "
        ++ pyListRepr python_files
        ++ "\n    Focus on:\n    1. Module-level docstrings and comments\n    2. Class and function definitions with signatures\n    3. Import statements and dependencies\n    4. Code hierarchy and nesting\n    5. File organization patterns")
    code_reader_agent
    "Structured representation of code components with preserved relationships and documentation."
    []

/-- Task `analyze_structure_task`: context is `[read_code_task]`. -/
def analyze_structure_task (python_files : List String) : Task :=
  .mk "Analyze the parsed code to create a comprehensive structural map:\n    1. Document class hierarchies and inheritance patterns\n    2. Map class attributes, methods, and their visibility\n    3. Identify implemented design patterns\n    4. Trace object interactions and dependencies\n    5. Evaluate component coupling and modularity"
    structure_analyzer_agent
    "Detailed architectural analysis with class relationships, patterns, and component interactions."
    [read_code_task python_files]

/-- Task `write_report_task`: context is `[analyze_structure_task]`. -/
def write_report_task (python_files : List String) : Task :=
  .mk "Generate comprehensive technical documentation using PlantUML:\n    1. Create class diagrams showing relationships and hierarchies\n    2. Design sequence diagrams for key interactions\n    3. Document the codebase hierarchy\n    4. Detail architectural patterns\n    5. Include dependency and component relationships"
    report_writer_agent
    "Complete technical documentation with UML diagrams, architectural overview, and relationship maps."
    [analyze_structure_task python_files]

/-- Crew `code_analysis_crew`: the assembled Crew with the declared task
order and the sequential process. -/
def code_analysis_crew (python_files : List String) : Crew :=
  { agents := [code_reader_agent, structure_analyzer_agent, report_writer_agent]
    tasks := [read_code_task python_files, analyze_structure_task python_files,
              write_report_task python_files]
    process := .sequential }

/-! ## Pipeline Executor (Crew.kickoff)

The executor itself lives in the external `crewai` library, not in this
repository's source, so it is modelled from the specification: run the
tasks strictly in declared order, assembling each task's request from
its description and the recorded results of its context tasks, record
the TaskResult, and after the last task assemble the PipelineResult
from the last task's result, the ordered list of all results and the
summed token usage.  Any failed agent invocation aborts the run with
that error. -/

/-- Modelled from the spec: a typed (pydantic) result object.  A
`BaseModel` instance carries a string form (used by `str(...)`) and is
always truthy when present. -/
structure PydanticModel where
  toStr : String
  deriving DecidableEq

/-- Modelled from the spec: a TaskResult — `raw` always present,
`json_dict` and `pydantic` optional. -/
structure TaskResult where
  raw : String
  json_dict : Option (List (String × Json))
  pydantic : Option PydanticModel

/-- Modelled from the spec: what one agent invocation returns — a
TaskResult plus the token usage of the call. -/
structure InvokeOut where
  out : TaskResult
  tokens : Nat

/-- Modelled from the spec: the request the executor assembles for one
task — its description and the results of its context tasks. -/
structure Request where
  description : String
  contextResults : List TaskResult

/-- Executor trace events: agent invocation start, TaskResult recorded.
The index is the position of the task in the declared order. -/
inductive Event where
  | start (i : Nat)
  | record (i : Nat)
  deriving DecidableEq

/-- Modelled from the spec: the aggregate result of a whole run. -/
structure PipelineResult where
  raw : String
  json_dict : Option (List (String × Json))
  pydantic : Option PydanticModel
  tasks_output : List TaskResult
  token_usage : Nat

/-- Look up the recorded results of every context task; `none` as soon
as one of them has not completed. -/
def assembleContext (done : List (Task × TaskResult)) : List Task → Option (List TaskResult)
  | [] => some []
  | t :: ts =>
    match done.find? (fun p => eqTask p.1 t) with
    | some p => (assembleContext done ts).map (p.2 :: ·)
    | none => none

/-- Modelled from the spec: execute the tasks strictly in order,
one at a time; a task starts only after the previous task's result is
recorded; an invocation failure aborts the run. -/
def execTasks (invoke : Nat → Task → Request → Except String InvokeOut) :
    List Task → Nat → List (Task × TaskResult) → Nat → List Event →
    Except String (List (Task × TaskResult) × Nat × List Event)
  | [], _, done, toks, tr => .ok (done, toks, tr)
  | t :: rest, i, done, toks, tr =>
    match assembleContext done t.context with
    | none => .error "context task has not completed"
    | some ctx =>
      match invoke i t ⟨t.description, ctx⟩ with
      | .error e => .error e
      | .ok o =>
        execTasks invoke rest (i + 1) (done ++ [(t, o.out)]) (toks + o.tokens)
          (tr ++ [.start i, .record i])

/-- Modelled from the spec: `Crew.kickoff` — run all tasks, then build
the PipelineResult from the last task's TaskResult, the full ordered
result list and the accumulated token usage.  Also returns the
execution trace. -/
def kickoff (crew : Crew) (invoke : Nat → Task → Request → Except String InvokeOut) :
    Except String (PipelineResult × List Event) :=
  match execTasks invoke crew.tasks 0 [] 0 [] with
  | .error e => .error e
  | .ok (done, toks, tr) =>
    match done.getLast? with
    | none => .error "crew has no tasks"
    | some p =>
      .ok ({ raw := p.2.raw, json_dict := p.2.json_dict, pydantic := p.2.pydantic,
             tasks_output := done.map Prod.snd, token_usage := toks }, tr)

/-! ## Result Materializer and the script's top level
(lines 152–174 of `crew_analyser.py`) -/

/-- A date-time as used for the timestamp (`datetime.now()`). -/
structure DateTime where
  year : Nat
  month : Nat
  day : Nat
  hour : Nat
  minute : Nat
  second : Nat

/-- Zero-padded two-digit field (`%m`, `%d`, `%H`, `%M`, `%S`). -/
def pad2 (n : Nat) : String :=
  if n < 10 then "0" ++ String.mk (natDigits n) else String.mk (natDigits n)

/-- Zero-padded four-digit year (`%Y`). -/
def pad4 (n : Nat) : String :=
  if n < 10 then "000" ++ String.mk (natDigits n)
  else if n < 100 then "00" ++ String.mk (natDigits n)
  else if n < 1000 then "0" ++ String.mk (natDigits n)
  else String.mk (natDigits n)

/-- Model of `datetime.strftime(<now>, "%Y%m%d_%H%M%S")`. -/
def strftimeCompact (d : DateTime) : String :=
  pad4 d.year ++ pad2 d.month ++ pad2 d.day ++ "_"
    ++ pad2 d.hour ++ pad2 d.minute ++ pad2 d.second

/-- Content of the Markdown artifact: the fixed header, a blank line,
then the raw result (lines 156–158). -/
def mdContent (r : PipelineResult) : String := "# Code Analysis Report\n\n" ++ r.raw

/-- Python `str` of one TaskOutput in the audit dump (modelled by its
raw text). -/
def showTaskResult (t : TaskResult) : String := t.raw

/-- Python `str` of `result.tasks_output` (a list). -/
def showTasksOutput (ts : List TaskResult) : String :=
  "[" ++ String.intercalate ", " (ts.map showTaskResult) ++ "]"

/-- Python `str` of `result.token_usage` (modelled as the count). -/
def showTokenUsage (n : Nat) : String := String.mk (natDigits n)

/-- Content of the timestamped audit artifact (lines 172–174): the two
f-string writes concatenated. -/
def auditContent (r : PipelineResult) : String :=
  "Tasks Output:\n" ++ showTasksOutput r.tasks_output ++ "\n"
    ++ "\nToken Usage:\n" ++ showTokenUsage r.token_usage

/-- The artifact writes of lines 156–174, in program order, as
(filename, content) pairs.  `if result.json_dict:` and
`if result.pydantic:` are Python truthiness tests: `None` and the empty
dict are falsy; a present pydantic model is always truthy. -/
def materialize (r : PipelineResult) (ts : String) : List (String × String) :=
  ("code_analysis_report.md", mdContent r) ::
  ((match r.json_dict with
    | some kvs => if kvs.isEmpty then [] else
        [("code_analysis_report.json", jsonPretty (Json.obj kvs))]
    | none => []) ++
   (match r.pydantic with
    | some m => [("code_analysis_report_pydantic.txt", m.toStr)]
    | none => []) ++
   [("task_output_" ++ ts ++ ".txt", auditContent r)])

/-- The script's top level after the crew is assembled: run
`kickoff`, and only on success write the artifacts; an uncaught
exception from `kickoff` propagates and nothing is written. -/
def runScript (crew : Crew) (invoke : Nat → Task → Request → Except String InvokeOut)
    (d : DateTime) : Except String (List (String × String)) :=
  match kickoff crew invoke with
  | .error e => .error e
  | .ok (r, _) => .ok (materialize r (strftimeCompact d))

/-! ## FileSet Discovery
(`glob.glob(os.path.join(workspace_folder, "**/*.py"), recursive=True)`,
line 23) -/

/-- A filesystem node: a file or a directory with children.  Paths are
modelled as lists of name components relative to the root. -/
inductive FSNode where
  | file (name : String)
  | dir (name : String) (children : List FSNode)

def nodeName : FSNode → String
  | .file n => n
  | .dir n _ => n

/-- Python `glob` treats names with a leading dot as hidden: `*` and `**` do
not match them. -/
def isHidden (n : String) : Bool :=
  match n.data with
  | [] => false
  | c :: _ => c = '.' 

/-- A name matches the pattern component `*.py`: not hidden and ending
in `.py`.  (`glob` matches directories as well as files with this
pattern.) -/
def matchesPyPat (n : String) : Bool := !isHidden n && ".py".data.isSuffixOf n.data

mutual

/-- All paths produced by `**/*.py` under a node: matches among the
direct children (with `**` matching zero directories), plus matches
found by recursing into non-hidden subdirectories. -/
def globPy : FSNode → List (List String)
  | .file _ => []
  | .dir _ cs => globTop cs ++ globRec cs

/-- Direct children whose name matches `*.py` (files or directories). -/
def globTop : List FSNode → List (List String)
  | [] => []
  | c :: cs => (if matchesPyPat (nodeName c) then [[nodeName c]] else []) ++ globTop cs

/-- Recursive matches inside non-hidden subdirectories. -/
def globRec : List FSNode → List (List String)
  | [] => []
  | .file _ :: cs => globRec cs
  | .dir n cs2 :: cs =>
    (if isHidden n then [] else (globPy (.dir n cs2)).map (fun p => n :: p)) ++ globRec cs

end


/-- FileSet Discovery: the configured root either does not resolve to a
node (`none`: path does not exist) or resolves to a file or directory;
`glob` yields `[]` unless it is a directory. -/
def discovery : Option FSNode → List (List String)
  | none => []
  | some t => globPy t

/-- Render discovered relative paths the way the source's `glob` call
does: joined onto the workspace folder with the path separator. -/
def pathStrings (ps : List (List String)) : List String :=
  ps.map (fun p => String.intercalate "\\" (workspace_folder :: p))

mutual

/-- Resolve a component path to a node under a root. -/
def resolve : FSNode → List String → Option FSNode
  | t, [] => some t
  | .file _, _ :: _ => none
  | .dir _ cs, n :: p => resolveIn cs n p

def resolveIn : List FSNode → String → List String → Option FSNode
  | [], _, _ => none
  | c :: cs, n, p => if nodeName c == n then resolve c p else resolveIn cs n p

end


/-- Whether path `p` denotes an existing plain file under `t`. -/
def isFileUnder (t : FSNode) (p : List String) : Bool :=
  match resolve t p with
  | some (.file _) => true
  | _ => false

/-- The declarative characterization of what the `**/*.py` glob
returns: a nonempty path whose intermediate components are non-hidden
(directories, by resolution), whose final component matches `*.py`,
and which resolves to an existing node. -/
def GlobSpec (t : FSNode) (p : List String) : Prop :=
  ∃ pre last, p = pre ++ [last] ∧ (resolve t p).isSome = true ∧
    (∀ n ∈ pre, isHidden n = false) ∧ matchesPyPat last = true

/-- Well-formed directory tree: sibling names are distinct (as on a
real filesystem). -/
inductive WF : FSNode → Prop where
  | file (n : String) : WF (.file n)
  | dir (n : String) (cs : List FSNode) :
      (cs.map nodeName).Nodup → (∀ c ∈ cs, WF c) → WF (.dir n cs)

/-- One step of the ordered-context check: every context reference of
each task must point at a task seen earlier in the sequence. -/
def ctxOk : List Task → List Task → Bool
  | _, [] => true
  | seen, t :: ts =>
    t.context.all (fun u => seen.any (fun v => eqTask v u)) && ctxOk (seen ++ [t]) ts

/-- Every task's context references only tasks earlier in the crew's
declared order (which makes the context relation acyclic). -/
def crewChainOk (c : Crew) : Bool := ctxOk [] c.tasks

/-- The canonical strictly-sequential trace over `n` tasks. -/
def seqTrace (n : Nat) : List Event :=
  (List.range n).flatMap (fun k => [Event.start k, Event.record k])

/-! ## Concrete fixtures used by witnesses -/

def wAgent : Agent :=
  { role := "r", goal := "g", backstory := "b", tools := [], llm := "m", verbose := false }

def wTask1 : Task := .mk "d1" wAgent "e1" []

def wTask2 : Task := .mk "d2" wAgent "e2" [wTask1]

def wTask3 : Task := .mk "d3" wAgent "e3" [wTask2]

def wCrew : Crew := ⟨[wAgent], [wTask1, wTask2, wTask3], .sequential⟩

/-- A stub agent capability returning "A", "B", "C" for the three
tasks, 7 tokens each. -/
def wInvoke : Nat → Task → Request → Except String InvokeOut :=
  fun i _ _ => .ok ⟨⟨["A", "B", "C"].getD i "", none, none⟩, 7⟩

/-- The pipeline result of running `wCrew` with `wInvoke`. -/
def wResult : PipelineResult :=
  ⟨"C", none, none, [⟨"A", none, none⟩, ⟨"B", none, none⟩, ⟨"C", none, none⟩], 21⟩

/-- The trace of running `wCrew` with `wInvoke`. -/
def wTrace : List Event :=
  [Event.start 0, Event.record 0, Event.start 1, Event.record 1,
   Event.start 2, Event.record 2]

/-- A stub agent capability that always fails. -/
def fInvoke : Nat → Task → Request → Except String InvokeOut :=
  fun _ _ _ => .error "provider failure"

def d0 : DateTime := ⟨2026, 10, 12, 0, 0, 0⟩

/-! ## Theorems -/

theorem takeDigits_cons (c : Char) (cs : List Char) (acc : Nat) :
    takeDigits (c :: cs) acc =
      if isDigitChar c then takeDigits cs (acc * 10 + (c.toNat - 48))
      else (acc, c :: cs) := rfl

theorem natDigitsAux_eq_append (n : Nat) (acc : List Char) :
    natDigitsAux n acc = natDigits n ++ acc := by
  induction n using Nat.strong_induction_on generalizing acc with
  | _ n ih =>
    conv_lhs => rw [natDigitsAux.eq_def]
    conv_rhs => rw [natDigits, natDigitsAux.eq_def]
    by_cases h : n < 10
    · simp [h]
    · simp only [dif_neg h]
      rw [ih (n / 10) (Nat.div_lt_self (by omega) (by omega)) (decDigit (n % 10) :: acc),
          ih (n / 10) (Nat.div_lt_self (by omega) (by omega)) [decDigit (n % 10)]]
      simp

/-- For `n ≥ 10` the digit string is that of `n / 10` followed by the
last digit. -/
theorem natDigits_ge10 (n : Nat) (h : ¬ n < 10) :
    natDigits n = natDigits (n / 10) ++ [decDigit (n % 10)] := by
  conv_lhs => rw [natDigits, natDigitsAux.eq_def]
  simp only [dif_neg h]
  rw [natDigitsAux_eq_append]

theorem valueOfDigits_nil (a : Nat) : valueOfDigits a [] = a := rfl

theorem valueOfDigits_cons (a : Nat) (c : Char) (cs : List Char) :
    valueOfDigits a (c :: cs) = valueOfDigits (a * 10 + (c.toNat - 48)) cs := rfl

theorem valueOfDigits_append (a : Nat) (ds es : List Char) :
    valueOfDigits a (ds ++ es) = valueOfDigits (valueOfDigits a ds) es := by
  induction ds generalizing a with
  | nil => rfl
  | cons c cs ih =>
    rw [List.cons_append, valueOfDigits_cons, valueOfDigits_cons, ih]

theorem decDigit_toNat {n : Nat} (h : n < 10) : (decDigit n).toNat = 48 + n := by
  interval_cases n <;> rfl

theorem isDigitChar_decDigit {n : Nat} (h : n < 10) : isDigitChar (decDigit n) = true := by
  interval_cases n <;> rfl

theorem natDigits_lt10 (n : Nat) (h : n < 10) : natDigits n = [decDigit n] := by
  conv_lhs => rw [natDigits, natDigitsAux.eq_def]
  simp [h]

theorem natDigits_all_digits (n : Nat) : ∀ c ∈ natDigits n, isDigitChar c = true := by
  induction n using Nat.strong_induction_on with
  | _ n ih =>
    by_cases h : n < 10
    · intro c hc
      rw [natDigits_lt10 n h] at hc
      simp at hc
      subst hc
      exact isDigitChar_decDigit h
    · intro c hc
      rw [natDigits_ge10 n h] at hc
      rcases List.mem_append.mp hc with h1 | h2
      · exact ih (n / 10) (Nat.div_lt_self (by omega) (by omega)) c h1
      · simp at h2
        subst h2
        exact isDigitChar_decDigit (Nat.mod_lt n (by omega))

theorem natDigits_ne_nil (n : Nat) : natDigits n ≠ [] := by
  by_cases h : n < 10
  · rw [natDigits_lt10 n h]
    simp
  · rw [natDigits_ge10 n h]
    simp

theorem valueOfDigits_natDigits (n a : Nat) :
    valueOfDigits a (natDigits n) = a * 10 ^ (natDigits n).length + n := by
  induction n using Nat.strong_induction_on generalizing a with
  | _ n ih =>
    by_cases h : n < 10
    · rw [natDigits_lt10 n h]
      simp only [valueOfDigits_cons, valueOfDigits_nil, decDigit_toNat h, List.length_cons,
        List.length_nil, pow_succ, pow_zero, one_mul]
      omega
    · rw [natDigits_ge10 n h, valueOfDigits_append,
          ih (n / 10) (Nat.div_lt_self (by omega) (by omega)) a]
      have hm : n % 10 < 10 := Nat.mod_lt n (by omega)
      simp only [valueOfDigits_cons, valueOfDigits_nil, decDigit_toNat hm, List.length_append,
        List.length_cons, List.length_nil, pow_succ, pow_zero, one_mul]
      generalize 10 ^ (natDigits (n / 10)).length = B
      have h2 : a * (B * 10) = a * B * 10 := by ring
      rw [h2]
      generalize a * B = A
      omega

/-- Parsing the digits of `n` past a non-digit (or empty) suffix
recovers `n` and leaves the suffix intact. -/
theorem takeDigits_spec (ds : List Char) (rest : List Char) (a : Nat)
    (hds : ∀ c ∈ ds, isDigitChar c = true)
    (hrest : ∀ c cs, rest = c :: cs → isDigitChar c = false) :
    takeDigits (ds ++ rest) a = (valueOfDigits a ds, rest) := by
  induction ds generalizing a with
  | nil =>
    cases rest with
    | nil => rfl
    | cons c cs =>
      rw [List.nil_append, takeDigits_cons, if_neg (by simp [hrest c cs rfl])]
      rfl
  | cons c cs ih =>
    have hc := hds c (by simp)
    rw [List.cons_append, takeDigits_cons, if_pos hc, valueOfDigits_cons]
    exact ih _ (fun d hd => hds d (by simp [hd]))


/-! ### Round trip: helper lemmas -/

theorem digitChar_hexVal {m : Nat} (h : m < 16) : hexVal (Nat.digitChar m) = some m := by
  interval_cases m <;> decide

theorem isDigitChar_not_ws {c : Char} (h : isDigitChar c = true) : isWsChar c = false := by
  simp [isDigitChar] at h
  simp [isWsChar]
  omega

theorem isDigitChar_ne_rsqb {c : Char} (h : isDigitChar c = true) : c ≠ ']' := by
  intro he
  subst he
  exact absurd h (by decide)

theorem isDigitChar_ne_minus {c : Char} (h : isDigitChar c = true) : c ≠ '-' := by
  intro he
  subst he
  exact absurd h (by decide)

theorem skipWs_nil : skipWs [] = [] := rfl

theorem skipWs_cons (c : Char) (cs : List Char) :
    skipWs (c :: cs) = if isWsChar c then skipWs cs else c :: cs := rfl

theorem skipWs_not_ws {c : Char} (cs : List Char) (h : isWsChar c = false) :
    skipWs (c :: cs) = c :: cs := by
  rw [skipWs_cons, if_neg (by simp [h])]

theorem skipWs_replicate_space (n : Nat) (r : List Char) :
    skipWs (List.replicate n ' ' ++ r) = skipWs r := by
  induction n with
  | zero => rfl
  | succ n ih =>
    rw [List.replicate_succ, List.cons_append, skipWs_cons, if_pos (by decide)]
    exact ih

theorem skipWs_nlIndent (n : Nat) (r : List Char) :
    skipWs (nlIndent n ++ r) = skipWs r := by
  rw [nlIndent, List.cons_append, skipWs_cons, if_pos (by decide)]
  exact skipWs_replicate_space n r

/-- The first character of a serialized JSON value: nonempty, not
whitespace, and not a closing bracket. -/
theorem serVal_head (cur : Nat) (j : Json) :
    ∃ c cs, serVal cur j = c :: cs ∧ isWsChar c = false ∧ c ≠ ']' := by
  cases j with
  | null => exact ⟨'n', ['u', 'l', 'l'], by simp [serVal], by decide, by decide⟩
  | bool b =>
    cases b with
    | true => exact ⟨'t', ['r', 'u', 'e'], by simp [serVal], by decide, by decide⟩
    | false => exact ⟨'f', ['a', 'l', 's', 'e'], by simp [serVal], by decide, by decide⟩
  | num i =>
    by_cases h : i < 0
    · exact ⟨'-', natDigits i.natAbs, by simp [serVal, intChars, h], by decide, by decide⟩
    · cases hd : natDigits i.natAbs with
      | nil => exact absurd hd (natDigits_ne_nil _)
      | cons c cs =>
        have hc : isDigitChar c = true := natDigits_all_digits _ c (by rw [hd]; simp)
        exact ⟨c, cs, by simp [serVal, intChars, h, hd],
          isDigitChar_not_ws hc, isDigitChar_ne_rsqb hc⟩
  | str s =>
    exact ⟨'"', escList s.data ++ ['"'], by simp [serVal, serStr], by decide, by decide⟩
  | arr xs =>
    cases xs with
    | nil => exact ⟨'[', [']'], by simp [serVal], by decide, by decide⟩
    | cons x xs =>
      exact ⟨'[', serItems (cur + 2) (x :: xs) ++ (nlIndent cur ++ [']']),
        by simp [serVal], by decide, by decide⟩
  | obj kvs =>
    cases kvs with
    | nil => exact ⟨lbrace, [rbrace], by simp [serVal], by decide, by decide⟩
    | cons kv kvs =>
      exact ⟨lbrace, serMems (cur + 2) (kv :: kvs) ++ (nlIndent cur ++ [rbrace]),
        by simp [serVal], by decide, by decide⟩

theorem skipWs_serVal (cur : Nat) (j : Json) (rest : List Char) :
    skipWs (serVal cur j ++ rest) = serVal cur j ++ rest := by
  obtain ⟨c, cs, heq, hws, -⟩ := serVal_head cur j
  rw [heq, List.cons_append, skipWs_not_ws _ hws]

theorem isDigitChar_ne_keywords {c : Char} (h : isDigitChar c = true) :
    c ≠ 'n' ∧ c ≠ 't' ∧ c ≠ 'f' ∧ c ≠ '"' ∧ c ≠ '[' ∧ c ≠ lbrace := by
  refine ⟨?_, ?_, ?_, ?_, ?_, ?_⟩ <;>
    (intro he; subst he; exact absurd h (by decide))

/-- Parsing the serialized decimal form of an integer, before a suffix
not starting with a digit, recovers the integer. -/
theorem parseNum_intChars (i : Int) (rest : List Char)
    (hrest : ∀ c cs, rest = c :: cs → isDigitChar c = false) :
    parseNum (intChars i ++ rest) = some (.num i, rest) := by
  by_cases h : i < 0
  · rw [intChars, if_pos h]
    cases hd : natDigits i.natAbs with
    | nil => exact absurd hd (natDigits_ne_nil _)
    | cons d ds =>
      have hd0 : isDigitChar d = true := natDigits_all_digits _ d (by rw [hd]; simp)
      have hval : valueOfDigits (d.toNat - 48) ds = i.natAbs := by
        have h1 := valueOfDigits_natDigits i.natAbs 0
        rw [hd, valueOfDigits_cons] at h1
        simpa using h1
      rw [List.cons_append, List.cons_append]
      simp only [parseNum, if_pos rfl, hd0, if_true]
      rw [takeDigits_spec ds rest (d.toNat - 48)
        (fun c hc => natDigits_all_digits _ c (by rw [hd]; simp [hc])) hrest]
      simp only [Option.some.injEq, Prod.mk.injEq, Json.num.injEq]
      refine ⟨?_, trivial⟩
      rw [hval]
      omega
  · rw [intChars, if_neg h]
    cases hd : natDigits i.natAbs with
    | nil => exact absurd hd (natDigits_ne_nil _)
    | cons d ds =>
      have hd0 : isDigitChar d = true := natDigits_all_digits _ d (by rw [hd]; simp)
      have hval : valueOfDigits (d.toNat - 48) ds = i.natAbs := by
        have h1 := valueOfDigits_natDigits i.natAbs 0
        rw [hd, valueOfDigits_cons] at h1
        simpa using h1
      rw [List.cons_append]
      simp only [parseNum, if_neg (isDigitChar_ne_minus hd0), hd0, if_true]
      rw [takeDigits_spec ds rest (d.toNat - 48)
        (fun c hc => natDigits_all_digits _ c (by rw [hd]; simp [hc])) hrest]
      simp only [Option.some.injEq, Prod.mk.injEq, Json.num.injEq]
      refine ⟨?_, trivial⟩
      rw [hval]
      omega

/-- Parsing an escaped string body followed by the closing quote
recovers the original characters. -/
theorem parseStrBody_esc (s : List Char) (rest : List Char) :
    parseStrBody (escList s ++ ('"' :: rest)) = some (s, rest) := by
  induction s with
  | nil =>
    rw [escList, List.nil_append, parseStrBody.eq_def]
    simp
  | cons c cs ih =>
    rw [escList, List.append_assoc, escChar]
    by_cases h1 : c = '"'
    · subst h1
      rw [if_pos rfl, List.cons_append, List.cons_append, parseStrBody.eq_def]
      simp [unescChar, ih]
    · rw [if_neg h1]
      by_cases h2 : c = '\\'
      · subst h2
        rw [if_pos rfl, List.cons_append, List.cons_append, parseStrBody.eq_def]
        simp [unescChar, ih]
      · rw [if_neg h2]
        by_cases h3 : c = '\n'
        · subst h3
          rw [if_pos rfl, List.cons_append, List.cons_append, parseStrBody.eq_def]
          simp [unescChar, ih]
        · rw [if_neg h3]
          by_cases h4 : c = '\t'
          · subst h4
            rw [if_pos rfl, List.cons_append, List.cons_append, parseStrBody.eq_def]
            simp [unescChar, ih]
          · rw [if_neg h4]
            by_cases h5 : c = '\r'
            · subst h5
              rw [if_pos rfl, List.cons_append, List.cons_append, parseStrBody.eq_def]
              simp [unescChar, ih]
            · rw [if_neg h5]
              by_cases h6 : c.toNat < 32
              · rw [if_pos h6]
                have hhi : hexVal (Nat.digitChar (c.toNat / 16)) = some (c.toNat / 16) :=
                  digitChar_hexVal (by omega)
                have hlo : hexVal (Nat.digitChar (c.toNat % 16)) = some (c.toNat % 16) :=
                  digitChar_hexVal (by omega)
                have h0 : hexVal '0' = some 0 := by decide
                have hofn : Char.ofNat (c.toNat / 16 * 16 + c.toNat % 16) = c := by
                  rw [show c.toNat / 16 * 16 + c.toNat % 16 = c.toNat from by omega,
                    Char.ofNat_toNat]
                rw [List.cons_append, List.cons_append, List.cons_append,
                  List.cons_append, List.cons_append, List.cons_append,
                  parseStrBody.eq_def]
                simp [h0, hhi, hlo, hofn, ih]
              · rw [if_neg h6, List.cons_append, parseStrBody.eq_def]
                simp [h1, h2, ih]

theorem mVal_pos (j : Json) : 1 ≤ mVal j := by
  cases j <;> simp [mVal]

theorem mItems_pos (xs : List Json) : 1 ≤ mItems xs := by
  cases xs <;> simp [mItems]

theorem mMems_pos (kvs : List (String × Json)) : 1 ≤ mMems kvs := by
  cases kvs <;> simp [mMems]

theorem headNotDigit_nlIndent (n : Nat) (tail : List Char) :
    ∀ c cs, nlIndent n ++ tail = c :: cs → isDigitChar c = false := by
  intro c cs h
  rw [nlIndent, List.cons_append] at h
  injection h with h1 _
  rw [← h1]
  decide

theorem headNotDigit_comma (tail : List Char) :
    ∀ c cs, ',' :: tail = c :: cs → isDigitChar c = false := by
  intro c cs h
  injection h with h1 _
  rw [← h1]
  decide

theorem minus_ne_lbrace : ('-' : Char) ≠ lbrace := by decide

theorem lbrace_ne_n : lbrace ≠ 'n' := by decide

theorem lbrace_ne_t : lbrace ≠ 't' := by decide

theorem lbrace_ne_f : lbrace ≠ 'f' := by decide

theorem lbrace_ne_quote : lbrace ≠ '"' := by decide

theorem lbrace_ne_lsqb : lbrace ≠ '[' := by decide

theorem quote_ne_rbrace : ('"' : Char) ≠ rbrace := by decide

theorem rbrace_ne_comma : rbrace ≠ ',' := by decide

theorem mItems_cons (x : Json) (xs : List Json) :
    mItems (x :: xs) = max (mVal x) (mItems xs) + 1 := by
  simp [mItems]

theorem mMems_cons (k : String) (v : Json) (kvs : List (String × Json)) :
    mMems ((k, v) :: kvs) = max (mVal v) (mMems kvs) + 1 := by
  simp [mMems]

theorem skipWs_rsqb (rest : List Char) : skipWs (']' :: rest) = ']' :: rest :=
  skipWs_not_ws rest (by decide)

theorem skipWs_rbrace (rest : List Char) : skipWs (rbrace :: rest) = rbrace :: rest :=
  skipWs_not_ws rest (by decide)

theorem skipWs_comma (rest : List Char) : skipWs (',' :: rest) = ',' :: rest :=
  skipWs_not_ws rest (by decide)

theorem skipWs_colon (rest : List Char) : skipWs (':' :: rest) = ':' :: rest :=
  skipWs_not_ws rest (by decide)

theorem skipWs_space (rest : List Char) : skipWs (' ' :: rest) = skipWs rest := by
  rw [skipWs_cons, if_pos (by decide)]

/-- Round trip at bounded size: parsing the pretty-printed form of a
value (or of serialized array items / object members) recovers it, for
every value of size at most `N`. -/
theorem rt_sized (N : Nat) :
    (∀ j : Json, sizeOf j ≤ N → ∀ (fuel cur : Nat) (rest : List Char),
        mVal j ≤ fuel → (∀ c cs, rest = c :: cs → isDigitChar c = false) →
        parseVal fuel (serVal cur j ++ rest) = some (j, rest)) ∧
    (∀ xs : List Json, sizeOf xs ≤ N → ∀ (fuel cur cur2 : Nat) (rest : List Char),
        mItems xs ≤ fuel →
        parseItems fuel (skipWs (serItems cur xs ++ (nlIndent cur2 ++ (']' :: rest)))) =
          some (xs, rest)) ∧
    (∀ kvs : List (String × Json), sizeOf kvs ≤ N →
        ∀ (fuel cur cur2 : Nat) (rest : List Char),
        mMems kvs ≤ fuel →
        parseMems fuel (skipWs (serMems cur kvs ++ (nlIndent cur2 ++ (rbrace :: rest)))) =
          some (kvs, rest)) := by
  induction N using Nat.strong_induction_on with
  | _ N ih =>
    refine ⟨?_, ?_, ?_⟩
    · intro j hsz fuel cur rest hf hrest
      cases fuel with
      | zero => exact absurd hf (by have := mVal_pos j; omega)
      | succ f =>
        cases j with
        | null => simp [serVal, parseVal]
        | bool b => cases b <;> simp [serVal, parseVal]
        | num i =>
          obtain ⟨c, tail, heq, hp⟩ :
              ∃ c tail, intChars i = c :: tail ∧ (isDigitChar c = true ∨ c = '-') := by
            by_cases hneg : i < 0
            · exact ⟨'-', natDigits i.natAbs, by rw [intChars, if_pos hneg], Or.inr rfl⟩
            · cases hd : natDigits i.natAbs with
              | nil => exact absurd hd (natDigits_ne_nil _)
              | cons d ds =>
                exact ⟨d, ds, by rw [intChars, if_neg hneg, hd],
                  Or.inl (natDigits_all_digits _ d (by rw [hd]; simp))⟩
          have hser : serVal cur (.num i) = intChars i := by simp [serVal]
          have hdisp : parseVal (f + 1) (c :: (tail ++ rest)) =
              parseNum (c :: (tail ++ rest)) := by
            rcases hp with hd | hminus
            · obtain ⟨n1, n2, n3, n4, n5, n6⟩ := isDigitChar_ne_keywords hd
              simp [parseVal, n1, n2, n3, n4, n5, n6]
            · subst hminus
              simp [parseVal, minus_ne_lbrace]
          rw [hser, heq, List.cons_append, hdisp, ← List.cons_append, ← heq]
          exact parseNum_intChars i rest hrest
        | str s =>
          rw [show serVal cur (.str s) = '"' :: (escList s.data ++ ['"']) from by
            simp [serVal, serStr]]
          rw [List.cons_append, List.append_assoc, List.singleton_append]
          simp [parseVal, parseStrBody_esc]
        | arr xs =>
          cases xs with
          | nil =>
            have h2 : 1 ≤ f := by
              simp [mVal, mItems] at hf
              omega
            cases f with
            | zero => omega
            | succ f2 =>
              rw [show serVal cur (.arr []) = ['[', ']'] from by simp [serVal]]
              simp [parseVal, skipWs_rsqb, parseItems]
          | cons x xs2 =>
            have hm : mItems (x :: xs2) ≤ f := by
              simp [mVal] at hf
              omega
            have hszlt : sizeOf (x :: xs2) < N := by
              simp at hsz ⊢
              omega
            rw [show serVal cur (.arr (x :: xs2)) =
                '[' :: (serItems (cur + 2) (x :: xs2) ++ (nlIndent cur ++ [']'])) from by
              simp [serVal]]
            rw [List.cons_append, List.append_assoc, List.append_assoc,
              List.singleton_append]
            have hital := (ih _ hszlt).2.1 (x :: xs2) le_rfl f (cur + 2) cur rest hm
            simp [parseVal, hital]
        | obj kvs =>
          cases kvs with
          | nil =>
            have h2 : 1 ≤ f := by
              simp [mVal, mMems] at hf
              omega
            cases f with
            | zero => omega
            | succ f2 =>
              rw [show serVal cur (.obj []) = [lbrace, rbrace] from by simp [serVal]]
              simp [parseVal, skipWs_rbrace, parseMems, lbrace_ne_n, lbrace_ne_t,
                lbrace_ne_f, lbrace_ne_quote, lbrace_ne_lsqb]
          | cons kv kvs2 =>
            have hm : mMems (kv :: kvs2) ≤ f := by
              simp [mVal] at hf
              omega
            have hszlt : sizeOf (kv :: kvs2) < N := by
              simp at hsz ⊢
              omega
            rw [show serVal cur (.obj (kv :: kvs2)) =
                lbrace :: (serMems (cur + 2) (kv :: kvs2) ++ (nlIndent cur ++ [rbrace])) from by
              simp [serVal]]
            rw [List.cons_append, List.append_assoc, List.append_assoc,
              List.singleton_append]
            have hmems := (ih _ hszlt).2.2 (kv :: kvs2) le_rfl f (cur + 2) cur rest hm
            simp [parseVal, hmems, lbrace_ne_n, lbrace_ne_t, lbrace_ne_f,
              lbrace_ne_quote, lbrace_ne_lsqb]
    · intro xs hsz fuel cur cur2 rest hf
      cases fuel with
      | zero => exact absurd hf (by have := mItems_pos xs; omega)
      | succ f =>
        cases xs with
        | nil =>
          rw [show serItems cur ([] : List Json) = [] from by simp [serItems],
            List.nil_append, skipWs_nlIndent, skipWs_rsqb]
          simp [parseItems]
        | cons x xs2 =>
          cases xs2 with
          | nil =>
            have hm : mVal x ≤ f := by
              simp [mItems] at hf
              omega
            have hszx : sizeOf x < N := by
              simp at hsz
              omega
            rw [show serItems cur [x] = nlIndent cur ++ serVal cur x from by
              simp [serItems], List.append_assoc, skipWs_nlIndent, skipWs_serVal]
            have hval := (ih _ hszx).1 x le_rfl f cur (nlIndent cur2 ++ (']' :: rest)) hm
              (headNotDigit_nlIndent cur2 (']' :: rest))
            obtain ⟨c, cs, hcc, hws, hnr⟩ := serVal_head cur x
            rw [hcc, List.cons_append] at hval ⊢
            simp [parseItems, hnr, hval, skipWs_nlIndent, skipWs_rsqb]
          | cons x2 xs3 =>
            have hm1 : mVal x ≤ f := by
              rw [mItems_cons] at hf
              omega
            have hm2 : mItems (x2 :: xs3) ≤ f := by
              rw [mItems_cons] at hf
              omega
            have hszx : sizeOf x < N := by
              simp at hsz
              omega
            have hsz2 : sizeOf (x2 :: xs3) < N := by
              simp at hsz ⊢
              omega
            rw [show serItems cur (x :: x2 :: xs3) =
                nlIndent cur ++ (serVal cur x ++ (',' :: serItems cur (x2 :: xs3))) from by
              simp [serItems]]
            rw [List.append_assoc, skipWs_nlIndent, List.append_assoc, List.cons_append,
              skipWs_serVal]
            have hval := (ih _ hszx).1 x le_rfl f cur
              (',' :: (serItems cur (x2 :: xs3) ++ (nlIndent cur2 ++ (']' :: rest)))) hm1
              (headNotDigit_comma _)
            have hrec := (ih _ hsz2).2.1 (x2 :: xs3) le_rfl f cur cur2 rest hm2
            obtain ⟨c, cs, hcc, hws, hnr⟩ := serVal_head cur x
            rw [hcc, List.cons_append] at hval ⊢
            simp [parseItems, hnr, hval, skipWs_comma, hrec]
    · intro kvs hsz fuel cur cur2 rest hf
      cases fuel with
      | zero => exact absurd hf (by have := mMems_pos kvs; omega)
      | succ f =>
        cases kvs with
        | nil =>
          rw [show serMems cur ([] : List (String × Json)) = [] from by simp [serMems],
            List.nil_append, skipWs_nlIndent, skipWs_rbrace]
          simp [parseMems]
        | cons kv kvs2 =>
          obtain ⟨k, v⟩ := kv
          cases kvs2 with
          | nil =>
            have hm : mVal v ≤ f := by
              simp [mMems] at hf
              omega
            have hszv : sizeOf v < N := by
              simp at hsz
              omega
            rw [show serMems cur [(k, v)] =
                nlIndent cur ++ (serStr k ++ (':' :: ' ' :: serVal cur v)) from by
              simp [serMems]]
            rw [List.append_assoc, skipWs_nlIndent, List.append_assoc, serStr,
              List.cons_append, List.append_assoc, List.singleton_append,
              skipWs_not_ws _ (by decide)]
            have hval := (ih _ hszv).1 v le_rfl f cur (nlIndent cur2 ++ (rbrace :: rest)) hm
              (headNotDigit_nlIndent cur2 (rbrace :: rest))
            simp [parseMems, parseStrBody_esc, List.cons_append, skipWs_colon, skipWs_space,
              skipWs_serVal, hval, skipWs_nlIndent, skipWs_rbrace, quote_ne_rbrace,
              rbrace_ne_comma]
          | cons kv2 kvs3 =>
            have hm1 : mVal v ≤ f := by
              rw [mMems_cons] at hf
              omega
            have hm2 : mMems (kv2 :: kvs3) ≤ f := by
              rw [mMems_cons] at hf
              omega
            have hszv : sizeOf v < N := by
              simp at hsz
              omega
            have hsz2 : sizeOf (kv2 :: kvs3) < N := by
              simp at hsz ⊢
              omega
            rw [show serMems cur ((k, v) :: kv2 :: kvs3) =
                nlIndent cur ++ (serStr k ++ (':' :: ' ' ::
                  (serVal cur v ++ (',' :: serMems cur (kv2 :: kvs3))))) from by
              simp [serMems]]
            rw [List.append_assoc, skipWs_nlIndent, List.append_assoc, serStr,
              List.cons_append, List.append_assoc, List.singleton_append,
              skipWs_not_ws _ (by decide)]
            have hval := (ih _ hszv).1 v le_rfl f cur
              (',' :: (serMems cur (kv2 :: kvs3) ++ (nlIndent cur2 ++ (rbrace :: rest)))) hm1
              (headNotDigit_comma _)
            have hrec := (ih _ hsz2).2.2 (kv2 :: kvs3) le_rfl f cur cur2 rest hm2
            simp [parseMems, parseStrBody_esc, List.cons_append, skipWs_colon, skipWs_space,
              skipWs_serVal, hval, skipWs_comma, hrec, List.append_assoc, quote_ne_rbrace,
              rbrace_ne_comma]

/-- Parsing the pretty-printed form of a value `j` (at any indentation
level) before a suffix not starting with a digit recovers `j` exactly,
provided the fuel is at least `mVal j`. -/
theorem rt_val (j : Json) (fuel cur : Nat) (rest : List Char)
    (hf : mVal j ≤ fuel)
    (hrest : ∀ c cs, rest = c :: cs → isDigitChar c = false) :
    parseVal fuel (serVal cur j ++ rest) = some (j, rest) :=
  (rt_sized (sizeOf j)).1 j le_rfl fuel cur rest hf hrest

/-- The fuel measure is bounded by the serialized length (plus one), so
`jsonParse`, which uses the input length as fuel, always has enough. -/
theorem mVal_le_len (N : Nat) :
    (∀ j : Json, sizeOf j ≤ N → ∀ cur, mVal j ≤ (serVal cur j).length + 1) ∧
    (∀ xs : List Json, sizeOf xs ≤ N → ∀ cur, mItems xs ≤ (serItems cur xs).length + 1) ∧
    (∀ kvs : List (String × Json), sizeOf kvs ≤ N →
        ∀ cur, mMems kvs ≤ (serMems cur kvs).length + 1) := by
  induction N using Nat.strong_induction_on with
  | _ N ih =>
    refine ⟨?_, ?_, ?_⟩
    · intro j hsz cur
      cases j with
      | null => simp [mVal]
      | bool b => simp [mVal]
      | num i => simp [mVal]
      | str s => simp [mVal]
      | arr xs =>
        cases xs with
        | nil => simp [mVal, mItems, serVal]
        | cons x xs2 =>
          have hszlt : sizeOf (x :: xs2) < N := by
            simp at hsz ⊢
            omega
          have hit := (ih _ hszlt).2.1 (x :: xs2) le_rfl (cur + 2)
          rw [show mVal (.arr (x :: xs2)) = mItems (x :: xs2) + 1 from by simp [mVal],
            show serVal cur (.arr (x :: xs2)) =
              '[' :: (serItems (cur + 2) (x :: xs2) ++ (nlIndent cur ++ [']'])) from by
            simp [serVal]]
          simp [nlIndent]
          omega
      | obj kvs =>
        cases kvs with
        | nil => simp [mVal, mMems, serVal]
        | cons kv kvs2 =>
          have hszlt : sizeOf (kv :: kvs2) < N := by
            simp at hsz ⊢
            omega
          have hit := (ih _ hszlt).2.2 (kv :: kvs2) le_rfl (cur + 2)
          rw [show mVal (.obj (kv :: kvs2)) = mMems (kv :: kvs2) + 1 from by simp [mVal],
            show serVal cur (.obj (kv :: kvs2)) =
              lbrace :: (serMems (cur + 2) (kv :: kvs2) ++ (nlIndent cur ++ [rbrace])) from by
            simp [serVal]]
          simp [nlIndent]
          omega
    · intro xs hsz cur
      cases xs with
      | nil => simp [mItems, serItems]
      | cons x xs2 =>
        have hszx : sizeOf x < N := by
          simp at hsz
          omega
        have hvx := (ih _ hszx).1 x le_rfl cur
        have hpx := mVal_pos x
        cases xs2 with
        | nil =>
          rw [mItems_cons, show serItems cur [x] = nlIndent cur ++ serVal cur x from by
            simp [serItems]]
          simp [mItems, nlIndent]
          omega
        | cons x2 xs3 =>
          have hsz2 : sizeOf (x2 :: xs3) < N := by
            simp at hsz ⊢
            omega
          have hit := (ih _ hsz2).2.1 (x2 :: xs3) le_rfl cur
          rw [mItems_cons, show serItems cur (x :: x2 :: xs3) =
              nlIndent cur ++ (serVal cur x ++ (',' :: serItems cur (x2 :: xs3))) from by
            simp [serItems]]
          simp [nlIndent]
          omega
    · intro kvs hsz cur
      cases kvs with
      | nil => simp [mMems, serMems]
      | cons kv kvs2 =>
        obtain ⟨k, v⟩ := kv
        have hszv : sizeOf v < N := by
          simp at hsz
          omega
        have hvv := (ih _ hszv).1 v le_rfl cur
        have hpv := mVal_pos v
        cases kvs2 with
        | nil =>
          rw [mMems_cons, show serMems cur [(k, v)] =
              nlIndent cur ++ (serStr k ++ (':' :: ' ' :: serVal cur v)) from by
            simp [serMems]]
          simp [mMems, nlIndent, serStr]
          omega
        | cons kv2 kvs3 =>
          have hsz2 : sizeOf (kv2 :: kvs3) < N := by
            simp at hsz ⊢
            omega
          have hit := (ih _ hsz2).2.2 (kv2 :: kvs3) le_rfl cur
          rw [mMems_cons, show serMems cur ((k, v) :: kv2 :: kvs3) =
              nlIndent cur ++ (serStr k ++ (':' :: ' ' ::
                (serVal cur v ++ (',' :: serMems cur (kv2 :: kvs3))))) from by
            simp [serMems]]
          simp [nlIndent, serStr]
          omega

/-- Pretty-printing any JSON value with 2-space indentation and
re-parsing it yields the value back. -/
theorem jsonParseString_pretty (j : Json) : jsonParseString (jsonPretty j) = some j := by
  have hlen : mVal j ≤ (serVal 0 j).length + 1 :=
    (mVal_le_len (sizeOf j)).1 j le_rfl 0
  have hp : parseVal ((serVal 0 j).length + 1) (serVal 0 j ++ []) = some (j, []) :=
    rt_val j ((serVal 0 j).length + 1) 0 [] hlen (by intro c cs h; cases h)
  rw [List.append_nil] at hp
  rw [jsonParseString, jsonPretty, jsonParse]
  have htl : (String.mk (serVal 0 j)).toList = serVal 0 j := rfl
  rw [htl]
  have hsk : skipWs (serVal 0 j) = serVal 0 j := by
    have := skipWs_serVal 0 j []
    rwa [List.append_nil] at this
  rw [hsk, hp]
  simp [skipWs_nil]

/-! ## Helper lemmas about the model -/

theorem eqTask_refl_sized (N : Nat) :
    (∀ t : Task, sizeOf t ≤ N → eqTask t t = true) ∧
    (∀ l : List Task, sizeOf l ≤ N → eqTasks l l = true) := by
  induction N using Nat.strong_induction_on with
  | _ N ih =>
    constructor
    · intro t hsz
      cases t with
      | mk d a e c =>
        have hc : sizeOf c < N := by
          simp at hsz
          omega
        simp [eqTask]
        exact (ih _ hc).2 c le_rfl
    · intro l hsz
      cases l with
      | nil => simp [eqTasks]
      | cons t ts =>
        have h1 : sizeOf t < N := by
          simp at hsz
          omega
        have h2 : sizeOf ts < N := by
          simp at hsz
          omega
        simp [eqTasks]
        exact ⟨(ih _ h1).1 t le_rfl, (ih _ h2).2 ts le_rfl⟩

/-- Task equality test is reflexive. -/
theorem eqTask_refl (t : Task) : eqTask t t = true :=
  (eqTask_refl_sized (sizeOf t)).1 t le_rfl

theorem getLast?_map {α β : Type} (f : α → β) (l : List α) :
    (l.map f).getLast? = l.getLast?.map f := by
  induction l with
  | nil => rfl
  | cons a l ih =>
    cases l with
    | nil => rfl
    | cons b l2 =>
      simp only [List.map_cons, List.getLast?_cons_cons] at ih ⊢
      exact ih

/-- Successful execution of a task list appends the canonical
strictly-sequential event trace. -/
theorem execTasks_ok_trace (ts : List Task)
    (invoke : Nat → Task → Request → Except String InvokeOut) :
    ∀ (i toks : Nat) (done : List (Task × TaskResult)) (tr : List Event)
      (done2 : List (Task × TaskResult)) (toks2 : Nat) (tr2 : List Event),
      execTasks invoke ts i done toks tr = .ok (done2, toks2, tr2) →
      tr2 = tr ++ (List.range' i ts.length).flatMap
        (fun k => [Event.start k, Event.record k]) := by
  induction ts with
  | nil =>
    intro i toks done tr done2 toks2 tr2 h
    simp [execTasks] at h
    simp [h]
  | cons t rest ih =>
    intro i toks done tr done2 toks2 tr2 h
    rw [execTasks] at h
    split at h
    · exact absurd h (by simp)
    · split at h
      · exact absurd h (by simp)
      · rename_i o hin
        have := ih (i + 1) (toks + o.tokens) (done ++ [(t, o.out)])
          (tr ++ [Event.start i, Event.record i]) done2 toks2 tr2 h
        rw [this, List.length_cons, List.range'_succ]
        simp

/-- The filenames of the fixed artifacts never coincide with the
timestamped audit filename (their first characters differ). -/
theorem fixed_ne_audit (s ts : String) (c : Char) (hhead : s.data.head? = some c)
    (hc : c ≠ 't') : s ≠ "task_output_" ++ ts ++ ".txt" := by
  intro h
  rw [h] at hhead
  have : ("task_output_" ++ ts ++ ".txt").data.head? = some 't' := rfl
  rw [this] at hhead
  exact hc (by injection hhead with h2; exact h2.symm)

theorem md_ne_audit (ts : String) :
    "code_analysis_report.md" ≠ "task_output_" ++ ts ++ ".txt" :=
  fixed_ne_audit _ ts 'c' rfl (by decide)

theorem json_ne_audit (ts : String) :
    "code_analysis_report.json" ≠ "task_output_" ++ ts ++ ".txt" :=
  fixed_ne_audit _ ts 'c' rfl (by decide)

theorem pyd_ne_audit (ts : String) :
    "code_analysis_report_pydantic.txt" ≠ "task_output_" ++ ts ++ ".txt" :=
  fixed_ne_audit _ ts 'c' rfl (by decide)

/-! ## The claims -/

/-- C1: the constructed Task graph is an acyclic linear chain of
exactly three tasks — `read_code_task` has no context,
`analyze_structure_task` has context `[read_code_task]`,
`write_report_task` has context `[analyze_structure_task]`, the crew's
declared order is exactly these three tasks, and every task's context
references only tasks earlier in the sequence. -/
theorem task_graph_is_linear_chain (files : List String) :
    (read_code_task files).context = [] ∧
    (analyze_structure_task files).context = [read_code_task files] ∧
    (write_report_task files).context = [analyze_structure_task files] ∧
    (code_analysis_crew files).tasks =
      [read_code_task files, analyze_structure_task files, write_report_task files] ∧
    (code_analysis_crew files).tasks.length = 3 ∧
    crewChainOk (code_analysis_crew files) = true := by
  refine ⟨rfl, rfl, rfl, rfl, rfl, ?_⟩
  simp [crewChainOk, ctxOk, code_analysis_crew, Task.context,
    read_code_task, analyze_structure_task, write_report_task, eqTask_refl]

/-- C2: under the modelled sequential executor, tasks are invoked
strictly one at a time in declared order — the execution trace of any
successful run is `start 0, record 0, start 1, record 1, …`, so a task
starts only after the previous task's result has been recorded; for
the three-task crew the trace is exactly the six-event sequence. -/
theorem executor_invokes_tasks_sequentially :
    (∀ (crew : Crew) (invoke : Nat → Task → Request → Except String InvokeOut)
        (r : PipelineResult) (tr : List Event),
      kickoff crew invoke = .ok (r, tr) → tr = seqTrace crew.tasks.length) ∧
    (∀ (files : List String) (invoke : Nat → Task → Request → Except String InvokeOut)
        (r : PipelineResult) (tr : List Event),
      kickoff (code_analysis_crew files) invoke = .ok (r, tr) →
      tr = [Event.start 0, Event.record 0, Event.start 1, Event.record 1,
            Event.start 2, Event.record 2]) := by
  have hgen : ∀ (crew : Crew) (invoke : Nat → Task → Request → Except String InvokeOut)
      (r : PipelineResult) (tr : List Event),
      kickoff crew invoke = .ok (r, tr) → tr = seqTrace crew.tasks.length := by
    intro crew invoke r tr h
    rw [kickoff] at h
    split at h
    · exact absurd h (by simp)
    · split at h
      · exact absurd h (by simp)
      · rename_i x1 done2 toks2 tr2 hexec2 x2 p hlast
        cases h
        rw [seqTrace, List.range_eq_range']
        simpa using execTasks_ok_trace crew.tasks invoke 0 0 [] [] done2 toks2 _ hexec2
  refine ⟨hgen, fun files invoke r tr h => ?_⟩
  exact (hgen _ invoke r tr h).trans (by rfl)

/-- C2 witness: a concrete successful run of a three-task crew has
exactly the declared-order trace. -/
theorem executor_invokes_tasks_sequentially_witness :
    wTrace = seqTrace wCrew.tasks.length :=
  executor_invokes_tasks_sequentially.1 wCrew wInvoke wResult wTrace rfl

/-- C3: the PipelineResult's `raw` (and `json_dict`, `pydantic`) equal
those of the last task's TaskResult, not an aggregation. -/
theorem pipeline_raw_equals_last_task_raw
    (crew : Crew) (invoke : Nat → Task → Request → Except String InvokeOut)
    (r : PipelineResult) (tr : List Event)
    (h : kickoff crew invoke = .ok (r, tr)) :
    ∃ last, r.tasks_output.getLast? = some last ∧ r.raw = last.raw ∧
      r.json_dict = last.json_dict ∧ r.pydantic = last.pydantic := by
  rw [kickoff] at h
  split at h
  · exact absurd h (by simp)
  · split at h
    · exact absurd h (by simp)
    · rename_i x1 done2 toks2 tr2 hexec2 x2 p hlast
      cases h
      exact ⟨p.2, by rw [getLast?_map, hlast]; rfl, rfl, rfl, rfl⟩

/-- C3 witness: three stub tasks returning "A", "B", "C" give a
PipelineResult whose raw is the last task's "C". -/
theorem pipeline_raw_equals_last_task_raw_witness :
    wResult.raw = "C" ∧
    ∃ last, wResult.tasks_output.getLast? = some last ∧ wResult.raw = last.raw ∧
      wResult.json_dict = last.json_dict ∧ wResult.pydantic = last.pydantic :=
  ⟨rfl, pipeline_raw_equals_last_task_raw wCrew wInvoke wResult wTrace rfl⟩

/-- C4: a failing agent invocation aborts the executor with that error,
and a failing `kickoff` makes the script fail without producing a
PipelineResult or writing any artifact. -/
theorem agent_failure_aborts_whole_run :
    (∀ (invoke : Nat → Task → Request → Except String InvokeOut)
        (i toks : Nat) (t : Task) (rest : List Task)
        (done : List (Task × TaskResult)) (tr : List Event)
        (ctx : List TaskResult) (e : String),
      assembleContext done t.context = some ctx →
      invoke i t ⟨t.description, ctx⟩ = .error e →
      execTasks invoke (t :: rest) i done toks tr = .error e) ∧
    (∀ (crew : Crew) (invoke : Nat → Task → Request → Except String InvokeOut)
        (d : DateTime) (e : String),
      kickoff crew invoke = .error e → runScript crew invoke d = .error e) := by
  constructor
  · intro invoke i toks t rest done tr ctx e h1 h2
    simp [execTasks, h1, h2]
  · intro crew invoke d e h
    simp [runScript, h]

/-- C4 witness: with an always-failing agent, the executor aborts on
the first task and the script write phase is never reached. -/
theorem agent_failure_aborts_whole_run_witness :
    execTasks fInvoke [wTask1] 0 [] 0 [] = .error "provider failure" ∧
    runScript wCrew fInvoke d0 = .error "provider failure" :=
  ⟨agent_failure_aborts_whole_run.1 fInvoke 0 0 wTask1 [] [] [] [] "provider failure" rfl rfl,
   agent_failure_aborts_whole_run.2 wCrew fInvoke d0 "provider failure" rfl⟩

/-- C5: on every successful run, the first artifact written is
`code_analysis_report.md`, and its content is exactly the fixed header
line, a blank line, and `PipelineResult.raw`. -/
theorem markdown_artifact_header_plus_raw
    (crew : Crew) (invoke : Nat → Task → Request → Except String InvokeOut)
    (d : DateTime) (arts : List (String × String))
    (r : PipelineResult) (tr : List Event)
    (hk : kickoff crew invoke = .ok (r, tr))
    (h : runScript crew invoke d = .ok arts) :
    arts.head? = some ("code_analysis_report.md", "# Code Analysis Report\n\n" ++ r.raw) := by
  rw [runScript, hk] at h
  cases h
  rfl

/-- C5 witness: the markdown artifact of a concrete successful run. -/
theorem markdown_artifact_header_plus_raw_witness :
    (materialize wResult (strftimeCompact d0)).head? =
      some ("code_analysis_report.md", "# Code Analysis Report\n\n" ++ wResult.raw) :=
  markdown_artifact_header_plus_raw wCrew wInvoke d0
    (materialize wResult (strftimeCompact d0)) wResult wTrace rfl rfl

theorem natDigits_length_one {n : Nat} (h : n < 10) : (natDigits n).length = 1 := by
  rw [natDigits_lt10 n h]
  rfl

theorem natDigits_length_two {n : Nat} (h1 : 10 ≤ n) (h2 : n < 100) :
    (natDigits n).length = 2 := by
  rw [natDigits_ge10 n (by omega)]
  rw [List.length_append, natDigits_length_one (by omega)]
  rfl

theorem natDigits_length_three {n : Nat} (h1 : 100 ≤ n) (h2 : n < 1000) :
    (natDigits n).length = 3 := by
  rw [natDigits_ge10 n (by omega)]
  rw [List.length_append, natDigits_length_two (by omega) (by omega)]
  rfl

theorem natDigits_length_four {n : Nat} (h1 : 1000 ≤ n) (h2 : n < 10000) :
    (natDigits n).length = 4 := by
  rw [natDigits_ge10 n (by omega)]
  rw [List.length_append, natDigits_length_three (by omega) (by omega)]
  rfl

theorem length_mk (l : List Char) : (String.mk l).length = l.length := rfl

theorem pad2_length {n : Nat} (h : n < 100) : (pad2 n).length = 2 := by
  rw [pad2]
  by_cases h1 : n < 10
  · rw [if_pos h1, String.length_append]
    show "0".data.length + (natDigits n).length = 2
    rw [natDigits_length_one h1]
    rfl
  · rw [if_neg h1]
    show (natDigits n).length = 2
    exact natDigits_length_two (by omega) h

theorem pad4_length {n : Nat} (h : n < 10000) : (pad4 n).length = 4 := by
  rw [pad4]
  by_cases h1 : n < 10
  · rw [if_pos h1, String.length_append]
    show "000".data.length + (natDigits n).length = 4
    rw [natDigits_length_one h1]
    rfl
  · rw [if_neg h1]
    by_cases h2 : n < 100
    · rw [if_pos h2, String.length_append]
      show "00".data.length + (natDigits n).length = 4
      rw [natDigits_length_two (by omega) h2]
      rfl
    · rw [if_neg h2]
      by_cases h3 : n < 1000
      · rw [if_pos h3, String.length_append]
        show "0".data.length + (natDigits n).length = 4
        rw [natDigits_length_three (by omega) h3]
        rfl
      · rw [if_neg h3]
        show (natDigits n).length = 4
        exact natDigits_length_four (by omega) h

theorem pad2_digits (n : Nat) : ∀ c ∈ (pad2 n).data, isDigitChar c = true := by
  rw [pad2]
  by_cases h1 : n < 10 <;> [rw [if_pos h1]; rw [if_neg h1]] <;> intro c hc
  · rcases (by simpa using hc : c = '0' ∨ c ∈ natDigits n) with h | h
    · subst h; decide
    · exact natDigits_all_digits n c h
  · exact natDigits_all_digits n c (by simpa using hc)

theorem pad4_digits (n : Nat) : ∀ c ∈ (pad4 n).data, isDigitChar c = true := by
  rw [pad4]
  by_cases h1 : n < 10
  · rw [if_pos h1]
    intro c hc
    rcases (by simpa using hc : c = '0' ∨ c ∈ natDigits n) with h | h
    · subst h; decide
    · exact natDigits_all_digits n c h
  · rw [if_neg h1]
    by_cases h2 : n < 100
    · rw [if_pos h2]
      intro c hc
      rcases (by simpa using hc : c = '0' ∨ c ∈ natDigits n) with h | h
      · subst h; decide
      · exact natDigits_all_digits n c h
    · rw [if_neg h2]
      by_cases h3 : n < 1000
      · rw [if_pos h3]
        intro c hc
        rcases (by simpa using hc : c = '0' ∨ c ∈ natDigits n) with h | h
        · subst h; decide
        · exact natDigits_all_digits n c h
      · rw [if_neg h3]
        intro c hc
        exact natDigits_all_digits n c (by simpa using hc)

/-- C7: the timestamped audit artifact is always written, regardless of
`json_dict`/`pydantic` presence, named `task_output_<stamp>.txt` where
the stamp has the `YYYYMMDD_HHMMSS` shape, and containing the ordered
`tasks_output` listing and the `token_usage` summary. -/
theorem audit_artifact_always_written (r : PipelineResult) (d : DateTime)
    (hy : d.year < 10000) (hmo : d.month < 100) (hd : d.day < 100)
    (hh : d.hour < 100) (hmi : d.minute < 100) (hs : d.second < 100) :
    ("task_output_" ++ strftimeCompact d ++ ".txt",
      "Tasks Output:\n" ++ showTasksOutput r.tasks_output ++ "\n"
        ++ "\nToken Usage:\n" ++ showTokenUsage r.token_usage) ∈
      materialize r (strftimeCompact d) ∧
    ∃ s1 s2 : String, strftimeCompact d = s1 ++ "_" ++ s2 ∧
      s1.length = 8 ∧ s2.length = 6 ∧
      (∀ c ∈ s1.data, isDigitChar c = true) ∧
      (∀ c ∈ s2.data, isDigitChar c = true) := by
  constructor
  · rw [materialize]
    exact List.mem_cons_of_mem _
      (List.mem_append.mpr (Or.inr (by simp [auditContent])))
  · refine ⟨pad4 d.year ++ pad2 d.month ++ pad2 d.day,
      pad2 d.hour ++ pad2 d.minute ++ pad2 d.second, ?_, ?_, ?_, ?_, ?_⟩
    · rw [strftimeCompact]
      simp [String.append_assoc]
    · simp [pad4_length hy, pad2_length hmo, pad2_length hd]
    · simp [pad2_length hh, pad2_length hmi, pad2_length hs]
    · intro c hc
      simp at hc
      rcases hc with h | h | h
      · exact pad4_digits _ c h
      · exact pad2_digits _ c h
      · exact pad2_digits _ c h
    · intro c hc
      simp at hc
      rcases hc with h | h | h
      · exact pad2_digits _ c h
      · exact pad2_digits _ c h
      · exact pad2_digits _ c h

/-- C7 witness: concrete run and date. -/
theorem audit_artifact_always_written_witness :
    ("task_output_" ++ strftimeCompact d0 ++ ".txt",
      "Tasks Output:\n" ++ showTasksOutput wResult.tasks_output ++ "\n"
        ++ "\nToken Usage:\n" ++ showTokenUsage wResult.token_usage) ∈
      materialize wResult (strftimeCompact d0) ∧
    ∃ s1 s2 : String, strftimeCompact d0 = s1 ++ "_" ++ s2 ∧
      s1.length = 8 ∧ s2.length = 6 ∧
      (∀ c ∈ s1.data, isDigitChar c = true) ∧
      (∀ c ∈ s2.data, isDigitChar c = true) :=
  audit_artifact_always_written wResult d0 (by decide) (by decide) (by decide)
    (by decide) (by decide) (by decide)

/-- C10: the artifact-presence checks are Python truthiness checks, not
non-None checks: a present-but-empty `json_dict` writes no JSON
artifact, and an absent (falsy) `pydantic` writes no pydantic artifact. -/
theorem presence_checks_are_truthiness (r : PipelineResult) (ts : String) :
    (r.json_dict = some [] →
      "code_analysis_report.json" ∉ (materialize r ts).map Prod.fst) ∧
    (r.pydantic = none →
      "code_analysis_report_pydantic.txt" ∉ (materialize r ts).map Prod.fst) := by
  constructor
  · intro hj
    rw [materialize, hj]
    simp [json_ne_audit ts]
    cases hp : r.pydantic with
    | none => simp
    | some m => simp
  · intro hp
    rw [materialize, hp]
    simp [pyd_ne_audit ts]
    cases hj : r.json_dict with
    | none => simp
    | some kvs =>
      cases hkv : kvs.isEmpty <;> simp

/-- C10 witness: empty-dict `json_dict` and absent `pydantic`. -/
theorem presence_checks_are_truthiness_witness :
    ("code_analysis_report.json" ∉
      (materialize (PipelineResult.mk "" (some []) none [] 0) "T").map Prod.fst) ∧
    ("code_analysis_report_pydantic.txt" ∉
      (materialize (PipelineResult.mk "" (some []) none [] 0) "T").map Prod.fst) :=
  ⟨(presence_checks_are_truthiness (PipelineResult.mk "" (some []) none [] 0) "T").1 rfl,
   (presence_checks_are_truthiness (PipelineResult.mk "" (some []) none [] 0) "T").2 rfl⟩

/-- C6 counterexample: with `json_dict` present but equal to the empty
mapping, the claimed "written iff present" fails — `json_dict` is
present (`isSome`) yet no JSON artifact is written, because the source
tests Python truthiness (`if result.json_dict:`), not presence. -/
theorem json_iff_present_counterexample :
    (PipelineResult.mk "" (some []) none [] 0).json_dict.isSome = true ∧
    "code_analysis_report.json" ∉
      (materialize (PipelineResult.mk "" (some []) none [] 0) "T").map Prod.fst := by
  constructor
  · rfl
  · simp [materialize]

/-- C6 amended: the JSON artifact is written iff `json_dict` is truthy
(present and nonempty); when written, its content is `json_dict`
pretty-printed with 2-space indentation, and re-parsing that artifact
yields the same mapping. -/
theorem json_artifact_iff_truthy_and_roundtrips (r : PipelineResult) (ts : String) :
    (("code_analysis_report.json" ∈ (materialize r ts).map Prod.fst) ↔
      (∃ kvs, r.json_dict = some kvs ∧ kvs ≠ [])) ∧
    (∀ kvs, r.json_dict = some kvs → kvs ≠ [] →
      ("code_analysis_report.json", jsonPretty (Json.obj kvs)) ∈ materialize r ts ∧
      jsonParseString (jsonPretty (Json.obj kvs)) = some (Json.obj kvs)) := by
  constructor
  · rw [materialize]
    cases hj : r.json_dict with
    | none =>
      simp [json_ne_audit ts]
      cases hp : r.pydantic with
      | none => simp
      | some m => simp
    | some kvs =>
      cases hkv : kvs.isEmpty with
      | true =>
        simp [hkv, json_ne_audit ts, List.isEmpty_iff.mp hkv]
        cases hp : r.pydantic with
        | none => simp
        | some m => simp
      | false =>
        simp [hkv]
        exact fun h => absurd (List.isEmpty_iff.mpr h) (by simp [hkv])
  · intro kvs hj hne
    refine ⟨?_, jsonParseString_pretty (Json.obj kvs)⟩
    rw [materialize, hj]
    have : kvs.isEmpty = false := by
      cases kvs with
      | nil => exact absurd rfl hne
      | cons a l => rfl
    simp [this]

/-- C6 witness: a concrete nonempty mapping is written pretty-printed
and round-trips. -/
theorem json_artifact_iff_truthy_and_roundtrips_witness :
    ("code_analysis_report.json",
        jsonPretty (Json.obj [("k", Json.num 3), ("s", Json.str "v")])) ∈
      materialize (PipelineResult.mk "R"
        (some [("k", Json.num 3), ("s", Json.str "v")]) none [] 0) "T" ∧
    jsonParseString (jsonPretty (Json.obj [("k", Json.num 3), ("s", Json.str "v")])) =
      some (Json.obj [("k", Json.num 3), ("s", Json.str "v")]) :=
  (json_artifact_iff_truthy_and_roundtrips
      (PipelineResult.mk "R" (some [("k", Json.num 3), ("s", Json.str "v")]) none [] 0)
      "T").2
    [("k", Json.num 3), ("s", Json.str "v")] rfl (by simp)

set_option maxRecDepth 16384 in
/-- C9: if the configured root does not exist (or is a plain file, not
a directory), discovery yields the empty set without error, and the
pipeline still proceeds: the three-task crew is built over the empty
file list and a run with a functioning agent capability completes and
writes its artifacts. -/
theorem missing_root_empty_discovery_pipeline_proceeds :
    discovery none = [] ∧
    (∀ n, discovery (some (FSNode.file n)) = []) ∧
    (code_analysis_crew (pathStrings (discovery none))).tasks.length = 3 ∧
    crewChainOk (code_analysis_crew (pathStrings (discovery none))) = true ∧
    (∃ arts, runScript (code_analysis_crew (pathStrings (discovery none))) wInvoke d0 =
      .ok arts) := by
  refine ⟨rfl, fun n => rfl, rfl, ?_, ⟨_, rfl⟩⟩
  simp [crewChainOk, ctxOk, code_analysis_crew, Task.context,
    read_code_task, analyze_structure_task, write_report_task, eqTask_refl]

/-! ## Correctness of the glob model -/

theorem globTop_mem (cs : List FSNode) (p : List String) :
    p ∈ globTop cs ↔ ∃ c ∈ cs, matchesPyPat (nodeName c) = true ∧ p = [nodeName c] := by
  induction cs with
  | nil => simp [globTop]
  | cons c cs ih =>
    rw [globTop]
    constructor
    · intro hp
      rcases List.mem_append.mp hp with h1 | h2
      · by_cases hm : matchesPyPat (nodeName c) = true
        · rw [if_pos hm] at h1
          simp at h1
          exact ⟨c, by simp, hm, h1⟩
        · rw [if_neg hm] at h1
          simp at h1
      · obtain ⟨c2, hc2, hm2, hp2⟩ := ih.mp h2
        exact ⟨c2, by simp [hc2], hm2, hp2⟩
    · rintro ⟨c2, hc2, hm2, rfl⟩
      rcases List.mem_cons.mp hc2 with rfl | hmem
      · exact List.mem_append.mpr (Or.inl (by rw [if_pos hm2]; simp))
      · exact List.mem_append.mpr (Or.inr (ih.mpr ⟨c2, hmem, hm2, rfl⟩))

theorem globRec_mem (cs : List FSNode) (p : List String) :
    p ∈ globRec cs ↔ ∃ n cs2, FSNode.dir n cs2 ∈ cs ∧ isHidden n = false ∧
      ∃ q, q ∈ globPy (.dir n cs2) ∧ p = n :: q := by
  induction cs with
  | nil => simp [globRec]
  | cons c cs ih =>
    cases c with
    | file nm =>
      rw [globRec, ih]
      constructor
      · rintro ⟨n, cs2, hmem, hh, q, hq, rfl⟩
        exact ⟨n, cs2, by simp [hmem], hh, q, hq, rfl⟩
      · rintro ⟨n, cs2, hmem, hh, q, hq, rfl⟩
        rcases List.mem_cons.mp hmem with h | h
        · exact absurd h (by simp)
        · exact ⟨n, cs2, h, hh, q, hq, rfl⟩
    | dir nm cs2 =>
      rw [globRec]
      constructor
      · intro hp
        rcases List.mem_append.mp hp with h1 | h2
        · by_cases h : isHidden nm
          · rw [if_pos h] at h1
            simp at h1
          · rw [if_neg h] at h1
            obtain ⟨q, hq, hpq⟩ := List.mem_map.mp h1
            exact ⟨nm, cs2, by simp, by simp [h], q, hq, hpq.symm⟩
        · obtain ⟨n, cs3, hmem, hh, q, hq, hpq⟩ := ih.mp h2
          exact ⟨n, cs3, by simp [hmem], hh, q, hq, hpq⟩
      · rintro ⟨n, cs3, hmem, hh, q, hq, rfl⟩
        rcases List.mem_cons.mp hmem with heq | hmem2
        · injection heq with h1 h2
          subst h1
          subst h2
          refine List.mem_append.mpr (Or.inl ?_)
          rw [if_neg (by simp [hh])]
          exact List.mem_map.mpr ⟨q, hq, rfl⟩
        · exact List.mem_append.mpr (Or.inr (ih.mpr ⟨n, cs3, hmem2, hh, q, hq, rfl⟩))

/-- Every glob result path is nonempty. -/
theorem globPy_ne_nil (t : FSNode) (p : List String) (hp : p ∈ globPy t) : p ≠ [] := by
  cases t with
  | file n => simp [globPy] at hp
  | dir n cs =>
    rw [globPy, List.mem_append] at hp
    rcases hp with h | h
    · obtain ⟨c, -, -, rfl⟩ := (globTop_mem cs p).mp h
      simp
    · obtain ⟨n2, cs2, -, -, q, -, rfl⟩ := (globRec_mem cs p).mp h
      simp

theorem resolveIn_isSome_iff (cs : List FSNode) (n : String) (p : List String)
    (hnd : (cs.map nodeName).Nodup) :
    (resolveIn cs n p).isSome = true ↔
      ∃ c ∈ cs, nodeName c = n ∧ (resolve c p).isSome = true := by
  induction cs with
  | nil => simp [resolveIn]
  | cons c cs ih =>
    rw [resolveIn]
    have hnd2 : (cs.map nodeName).Nodup := (List.nodup_cons.mp hnd).2
    have hnin : nodeName c ∉ cs.map nodeName := (List.nodup_cons.mp hnd).1
    by_cases h : nodeName c = n
    · rw [if_pos (by simp [h])]
      constructor
      · intro hs
        exact ⟨c, by simp, h, hs⟩
      · rintro ⟨c2, hc2, hn2, hs2⟩
        rcases List.mem_cons.mp hc2 with rfl | hmem
        · exact hs2
        · exfalso
          apply hnin
          rw [h, ← hn2]
          exact List.mem_map_of_mem nodeName hmem
    · rw [if_neg (by simp [h])]
      rw [ih hnd2]
      constructor
      · rintro ⟨c2, hc2, hn2, hs2⟩
        exact ⟨c2, by simp [hc2], hn2, hs2⟩
      · rintro ⟨c2, hc2, hn2, hs2⟩
        rcases List.mem_cons.mp hc2 with rfl | hmem
        · exact absurd hn2 h
        · exact ⟨c2, hmem, hn2, hs2⟩

theorem globTop_nodup (cs : List FSNode) (hnd : (cs.map nodeName).Nodup) :
    (globTop cs).Nodup := by
  induction cs with
  | nil => simp [globTop]
  | cons c cs ih =>
    rw [globTop]
    have hnd2 := (List.nodup_cons.mp hnd).2
    have hnin := (List.nodup_cons.mp hnd).1
    by_cases hm : matchesPyPat (nodeName c) = true
    · rw [if_pos hm, List.singleton_append]
      refine List.nodup_cons.mpr ⟨?_, ih hnd2⟩
      intro hmem
      obtain ⟨c2, hc2, -, heq⟩ := (globTop_mem cs _).mp hmem
      injection heq with h1 h2x
      exact hnin (by rw [h1]; exact List.mem_map_of_mem nodeName hc2)
    · rw [if_neg hm, List.nil_append]
      exact ih hnd2

theorem globRec_nodup (cs : List FSNode) (hnd : (cs.map nodeName).Nodup)
    (hsub : ∀ n cs2, FSNode.dir n cs2 ∈ cs → (globPy (.dir n cs2)).Nodup) :
    (globRec cs).Nodup := by
  induction cs with
  | nil => simp [globRec]
  | cons c cs ih =>
    have hnd2 := (List.nodup_cons.mp hnd).2
    have hnin := (List.nodup_cons.mp hnd).1
    cases c with
    | file nm =>
      rw [globRec]
      exact ih hnd2 (fun n cs2 h => hsub n cs2 (by simp [h]))
    | dir nm cs2 =>
      rw [globRec]
      by_cases h : isHidden nm
      · rw [if_pos h, List.nil_append]
        exact ih hnd2 (fun n cs3 h2 => hsub n cs3 (by simp [h2]))
      · rw [if_neg h]
        refine List.Nodup.append
          ((hsub nm cs2 (by simp)).map (fun a b hab => by injection hab))
          (ih hnd2 (fun n cs3 h2 => hsub n cs3 (by simp [h2]))) ?_
        intro x hx1 hx2
        obtain ⟨q, hq, rfl⟩ := List.mem_map.mp hx1
        obtain ⟨n2, cs3, hmem2, -, q2, -, heq⟩ := (globRec_mem cs _).mp hx2
        injection heq with h1 h2x
        apply hnin
        show nm ∈ cs.map nodeName
        rw [h1]
        exact List.mem_map_of_mem nodeName hmem2

/-- Correctness of the glob model (size-bounded strong induction):
for a well-formed tree, the result is duplicate-free and contains
exactly the paths of the declarative characterization `GlobSpec`. -/
theorem glob_correct_sized (N : Nat) : ∀ t : FSNode, sizeOf t ≤ N → WF t →
    (globPy t).Nodup ∧ ∀ p, (p ∈ globPy t ↔ GlobSpec t p) := by
  induction N using Nat.strong_induction_on with
  | _ N ih =>
    intro t hsz hwf
    cases t with
    | file n =>
      refine ⟨by simp [globPy], fun p => ?_⟩
      constructor
      · intro h
        simp [globPy] at h
      · rintro ⟨pre, last, rfl, hres, -, -⟩
        exfalso
        cases hpre : pre ++ [last] with
        | nil => exact absurd hpre (by simp)
        | cons a as =>
          rw [hpre] at hres
          simp [resolve] at hres
    | dir m cs =>
      cases hwf with
      | dir _ _ hnd hwfc =>
        have hchild : ∀ c ∈ cs, (globPy c).Nodup ∧ ∀ p, (p ∈ globPy c ↔ GlobSpec c p) := by
          intro c hc
          have hlt : sizeOf c < N := by
            have h1 := List.sizeOf_lt_of_mem hc
            have h2 : sizeOf (FSNode.dir m cs) ≤ N := hsz
            simp at h2
            omega
          exact ih _ hlt c le_rfl (hwfc c hc)
        constructor
        · rw [globPy]
          refine List.Nodup.append (globTop_nodup cs hnd)
            (globRec_nodup cs hnd (fun n cs2 h => (hchild _ h).1)) ?_
          intro x hx1 hx2
          obtain ⟨c, -, -, rfl⟩ := (globTop_mem cs x).mp hx1
          obtain ⟨n2, cs3, -, -, q, hq, heq⟩ := (globRec_mem cs _).mp hx2
          injection heq with h1x h2
          exact globPy_ne_nil _ q hq h2.symm
        · intro p
          rw [globPy, List.mem_append, globTop_mem, globRec_mem]
          constructor
          · rintro (⟨c, hc, hm, rfl⟩ | ⟨n2, cs3, hmem, hh, q, hq, rfl⟩)
            · refine ⟨[], nodeName c, by simp, ?_, by simp, hm⟩
              show (resolveIn cs (nodeName c) []).isSome = true
              refine (resolveIn_isSome_iff cs _ [] hnd).mpr ⟨c, hc, rfl, ?_⟩
              rw [show resolve c [] = some c from by rw [resolve]]
              rfl
            · obtain ⟨pre2, last2, rfl, hres2, hpre2, hlast2⟩ :=
                ((hchild _ hmem).2 q).mp hq
              refine ⟨n2 :: pre2, last2, by simp, ?_, ?_, hlast2⟩
              · show (resolveIn cs n2 (pre2 ++ [last2])).isSome = true
                exact (resolveIn_isSome_iff cs n2 _ hnd).mpr
                  ⟨FSNode.dir n2 cs3, hmem, rfl, hres2⟩
              · intro x hx
                rcases List.mem_cons.mp hx with rfl | hx2
                · exact hh
                · exact hpre2 x hx2
          · rintro ⟨pre, last, rfl, hres, hpre, hlast⟩
            cases pre with
            | nil =>
              left
              have hres2 : (resolveIn cs last []).isSome = true := hres
              obtain ⟨c, hc, hn, -⟩ := (resolveIn_isSome_iff cs last [] hnd).mp hres2
              exact ⟨c, hc, by rw [hn]; exact hlast, by simp [hn]⟩
            | cons n2 pre2 =>
              right
              have hres2 : (resolveIn cs n2 (pre2 ++ [last])).isSome = true := hres
              obtain ⟨c, hc, hn, hs⟩ := (resolveIn_isSome_iff cs n2 _ hnd).mp hres2
              cases c with
              | file nm =>
                exfalso
                cases hp2 : pre2 ++ [last] with
                | nil => exact absurd hp2 (by simp)
                | cons a as =>
                  rw [hp2] at hs
                  simp [resolve] at hs
              | dir nm cs3 =>
                have hnm : nm = n2 := hn
                subst hnm
                refine ⟨nm, cs3, hc, hpre nm (by simp), ?_⟩
                have hgs : GlobSpec (FSNode.dir nm cs3) (pre2 ++ [last]) :=
                  ⟨pre2, last, rfl, hs, fun x hx => hpre x (by simp [hx]), hlast⟩
                exact ⟨pre2 ++ [last], ((hchild _ hc).2 _).mpr hgs, rfl⟩

/-- C8 counterexample: glob with `**/*.py` is not "exactly the files
ending in `.py`": a hidden file `.hidden.py` (a file under the root
whose name ends in `.py`) is omitted, while a directory named `sub.py`
is returned although it is not a file. -/
theorem discovery_pyfilter_counterexample :
    globPy (FSNode.dir "root" [.file ".hidden.py", .dir "sub.py" []]) = [["sub.py"]] ∧
    isFileUnder (FSNode.dir "root" [.file ".hidden.py", .dir "sub.py" []])
      [".hidden.py"] = true ∧
    ".py".data.isSuffixOf ".hidden.py".data = true ∧
    [".hidden.py"] ∉ globPy (FSNode.dir "root" [.file ".hidden.py", .dir "sub.py" []]) ∧
    isFileUnder (FSNode.dir "root" [.file ".hidden.py", .dir "sub.py" []])
      ["sub.py"] = false := by
  refine ⟨rfl, rfl, by decide, by decide, rfl⟩

/-- C8 amended: for every well-formed root directory, discovery returns
exactly the set of paths (files or directories) whose final name
component ends in `.py` and does not start with a dot, reachable
through non-hidden directories — each exactly once (no duplicates). -/
theorem discovery_exactly_glob_matches (t : FSNode) (hwf : WF t) :
    (globPy t).Nodup ∧ ∀ p, (p ∈ globPy t ↔ GlobSpec t p) :=
  glob_correct_sized (sizeOf t) t le_rfl hwf

/-- C8 amended, witness: a concrete well-formed tree. -/
theorem discovery_exactly_glob_matches_witness :
    (globPy (FSNode.dir "root" [.file "a.py", .dir "pkg" [.file "e.py"]])).Nodup ∧
    (["pkg", "e.py"] ∈ globPy (FSNode.dir "root" [.file "a.py", .dir "pkg" [.file "e.py"]]) ↔
      GlobSpec (FSNode.dir "root" [.file "a.py", .dir "pkg" [.file "e.py"]])
        ["pkg", "e.py"]) := by
  have hwf : WF (FSNode.dir "root" [.file "a.py", .dir "pkg" [.file "e.py"]]) := by
    refine WF.dir _ _ (by decide) ?_
    intro c hc
    rcases List.mem_cons.mp hc with rfl | hc2
    · exact WF.file _
    · rcases List.mem_cons.mp hc2 with rfl | hc3
      · refine WF.dir _ _ (by decide) ?_
        intro c2 hc2
        rcases List.mem_cons.mp hc2 with rfl | hc4
        · exact WF.file _
        · simp at hc4
      · simp at hc3
  have h := discovery_exactly_glob_matches
    (FSNode.dir "root" [.file "a.py", .dir "pkg" [.file "e.py"]]) hwf
  exact ⟨h.1, h.2 _⟩

end CrewAnalyser
